import Mathlib

/-! Verification of the `AsciiRenderer` character-cell renderer.

This file gives a shallow embedding of the class `AsciiRenderer` from
`src/ascii_renderer.py` (buffer construction, intensity mapping, frame
loading, drawing primitives, ANSI rendering, and the fixed-timestep main
loop) together with theorems about the embedded operations.  Python's
arbitrary-precision integers are modelled by `ℤ`, its real arithmetic by
`ℚ`, list indexing (including negative indexing and `IndexError`) by
`py_index`, and raised exceptions by `Option`/error-code results. -/

/-- A buffer cell `(char, color_code)`, as stored in `self.buffer`. -/
abbrev Cell := Char × ℤ

/-- Python `int(...)` applied to a real quantity: truncation toward zero. -/
def py_int (q : ℚ) : ℤ := if 0 ≤ q then q.floor else -((-q).floor)

/-- Python list indexing `l[i]`: non-negative indices count from the front,
negative indices from the back; `none` models an `IndexError`. -/
def py_index {α : Type} (l : List α) (i : ℤ) : Option α :=
  if 0 ≤ i then l.get? i.toNat
  else if 0 ≤ (l.length : ℤ) + i then l.get? ((l.length : ℤ) + i).toNat
  else none

/-- `utils.DEFAULT_CHAR_MAP`, which is also the default `char_map` built by
`AsciiRenderer.__init__` when none is supplied. -/
def DEFAULT_CHAR_MAP : List Char := [' ', '.', ':', '-', '=', '+', '*', '#', '%', '@']

/-- The renderer state relevant to the embedded operations: the fields
`width`, `height`, `char_map` and `buffer` of an `AsciiRenderer` object. -/
structure AsciiRenderer where
  width : ℕ
  height : ℕ
  char_map : List Char
  buffer : List (List Cell)
  deriving DecidableEq

/-- `AsciiRenderer.__init__`: a `height × width` buffer of `(' ', -1)` cells,
with the default grayscale ramp when `char_map is None`. -/
def AsciiRenderer.init (width height : ℕ) (char_map : Option (List Char)) : AsciiRenderer :=
  { width := width
    height := height
    char_map := char_map.getD DEFAULT_CHAR_MAP
    buffer := List.replicate height (List.replicate width ((' ', -1) : Cell)) }

/-- Round a rational to the nearest integer, ties to even (the IEEE-754
default rounding of a mantissa). -/
def roundHalfEven (y : ℚ) : ℤ :=
  if y - (⌊y⌋ : ℚ) < 1 / 2 then ⌊y⌋
  else if 1 / 2 < y - (⌊y⌋ : ℚ) then ⌊y⌋ + 1
  else if ⌊y⌋ % 2 = 0 then ⌊y⌋ else ⌊y⌋ + 1

/-- Round a positive rational to 53 significant bits: scale into the
mantissa range `[2^52, 2^53)` using the binade exponent `Int.log 2 x`,
round the mantissa to the nearest integer (ties to even), and scale back. -/
def round64Pos (x : ℚ) : ℚ :=
  (roundHalfEven (x / 2 ^ (Int.log 2 x - 52)) : ℚ) * 2 ^ (Int.log 2 x - 52)

/-- Correct rounding of an exact rational to an IEEE-754 binary64 value
(CPython's `float`): round to nearest, ties to even, 53-bit mantissa.  The
exponent is unbounded: overflow (`|result| ≥ 2^1024`) and subnormal
(`0 < |result| < 2^-1022`) cases, which no intensity computation in the
stated input ranges reaches, round at full precision rather than to
infinity or with reduced precision. -/
def round64 (q : ℚ) : ℚ :=
  if q = 0 then 0 else if 0 < q then round64Pos q else -round64Pos (-q)

/-- The index `int((intensity / 255) * (len(self.char_map) - 1))` computed
by `AsciiRenderer._map_intensity_to_char` in CPython float arithmetic:
`intensity / 255` is one correctly rounded binary64 division of exact
integers, the factor `len(self.char_map) - 1` is converted to binary64,
the product rounds once more, and `int(...)` truncates toward zero. -/
def map_index (char_map : List Char) (intensity : ℤ) : ℤ :=
  py_int (round64 (round64 ((intensity : ℚ) / 255)
    * round64 ((char_map.length : ℚ) - 1)))

/-- A 52-glyph ramp (the uppercase then lowercase Latin letters), used to
exhibit binary64 rounding in the intensity mapper. -/
def RAMP52 : List Char := "ABCDEFGHIJKLMNOPQRSTUVWXYZabcdefghijklmnopqrstuvwxyz".data

/-- `AsciiRenderer._map_intensity_to_char`: returns
`self.char_map[index]` under Python indexing; `none` models the
`IndexError` raised when the index is out of range. -/
def map_intensity_to_char (char_map : List Char) (intensity : ℤ) : Option Char :=
  py_index char_map (map_index char_map intensity)

/-- Well-formedness of the renderer state: the buffer is a `height × width`
grid, as established by `__init__` and preserved by every operation. -/
def Wf (r : AsciiRenderer) : Prop :=
  r.buffer.length = r.height ∧ ∀ row ∈ r.buffer, row.length = r.width

instance (r : AsciiRenderer) : Decidable (Wf r) := by
  unfold Wf
  infer_instance

/-- Observation function for theorems: the cell stored at buffer position
`(x, y)`, i.e. `self.buffer[y][x]` for non-negative indices. -/
def cellAt (r : AsciiRenderer) (x y : ℤ) : Option Cell :=
  if 0 ≤ x ∧ 0 ≤ y then (r.buffer.get? y.toNat).bind (fun row => row.get? x.toNat)
  else none

/-- The raw buffer write `self.buffer[y][x] = (char, color_code)` shared by
`draw_char`, `draw_text` and `load_frame`; always used with in-range indices. -/
def write_cell (r : AsciiRenderer) (x y : ℕ) (c : Char) (color : ℤ) : AsciiRenderer :=
  { r with buffer := r.buffer.set y ((r.buffer.getD y []).set x (c, color)) }

/-- `AsciiRenderer.draw_char`: bounds-checked single-cell write; out-of-range
coordinates are a silent no-op. -/
def draw_char (r : AsciiRenderer) (x y : ℤ) (c : Char) (color : ℤ) : AsciiRenderer :=
  if 0 ≤ x ∧ x < (r.width : ℤ) ∧ 0 ≤ y ∧ y < (r.height : ℤ) then
    write_cell r x.toNat y.toNat c color
  else r

/-- The `for i, char_to_draw in enumerate(text)` loop of
`AsciiRenderer.draw_text`, with `i` the enumeration index. -/
def draw_text_from (x y color : ℤ) : ℕ → List Char → AsciiRenderer → AsciiRenderer
  | _, [], r => r
  | i, c :: cs, r =>
    draw_text_from x y color (i + 1) cs
      (if 0 ≤ x + (i : ℤ) ∧ x + (i : ℤ) < (r.width : ℤ) ∧ 0 ≤ y ∧ y < (r.height : ℤ)
       then write_cell r (x + (i : ℤ)).toNat y.toNat c color
       else r)

/-- `AsciiRenderer.draw_text`: writes the characters of `text` at
consecutive x-offsets, each position independently bounds-checked. -/
def draw_text (r : AsciiRenderer) (x y : ℤ) (text : String) (color : ℤ) : AsciiRenderer :=
  draw_text_from x y color 0 text.data r

/-- `AsciiRenderer.clear_buffer`: refills the buffer with one cell value. -/
def clear_buffer (r : AsciiRenderer) (c : Char) (color : ℤ) : AsciiRenderer :=
  { r with buffer := List.replicate r.height (List.replicate r.width (c, color)) }

/-- Exceptions raised by the embedded `load_frame`. -/
inductive PyErr where
  | valueError
  | indexError
  deriving DecidableEq

/-- A cell of `frame_data`: either an `(intensity, color_code)` 2-tuple or a
bare intensity value (the pre-color format). -/
inductive FrameCell where
  | pair (intensity : ℤ) (color : ℤ)
  | scalar (intensity : ℤ)
  deriving DecidableEq

/-- The intensity resolved from a frame cell by `load_frame`. -/
def frame_cell_intensity : FrameCell → ℤ
  | .pair i _ => i
  | .scalar i => i

/-- The color code resolved from a frame cell by `load_frame`: a 2-tuple
keeps its color, any other value defaults to `-1` (no color). -/
def frame_cell_color : FrameCell → ℤ
  | .pair _ c => c
  | .scalar _ => -1

/-- The inner `for c in range(self.width)` loop of `load_frame`, processing
columns `j, j+1, ...` of row `i` (`fuel` counts the remaining columns).
Reading a missing frame cell or an out-of-range glyph lookup raises
`IndexError`, leaving the buffer as mutated so far. -/
def load_cols (cm : List Char) (i : ℕ) (row : List FrameCell) :
    ℕ → ℕ → AsciiRenderer → AsciiRenderer × Option PyErr
  | 0, _, r => (r, none)
  | fuel + 1, j, r =>
    match row.get? j with
    | none => (r, some PyErr.indexError)
    | some fc =>
      match map_intensity_to_char cm (frame_cell_intensity fc) with
      | none => (r, some PyErr.indexError)
      | some ch => load_cols cm i row fuel (j + 1) (write_cell r j i ch (frame_cell_color fc))

/-- The outer `for r in range(self.height)` loop of `load_frame`. -/
def load_rows (cm : List Char) (fd : List (List FrameCell)) (w : ℕ) :
    ℕ → ℕ → AsciiRenderer → AsciiRenderer × Option PyErr
  | 0, _, r => (r, none)
  | fuel + 1, i, r =>
    match fd.get? i with
    | none => (r, some PyErr.indexError)
    | some row =>
      match load_cols cm i row w 0 r with
      | (r', none) => load_rows cm fd w fuel (i + 1) r'
      | (r', some e) => (r', some e)

/-- `AsciiRenderer.load_frame`: the dimension check
`len(frame_data) != self.height or len(frame_data[0]) != self.width`
(short-circuiting, so `frame_data[0]` is only read when the row count
matches; on an empty source with `height == 0` that read itself raises
`IndexError`), followed by the cell-writing loops. -/
def load_frame (r : AsciiRenderer) (fd : List (List FrameCell)) :
    AsciiRenderer × Option PyErr :=
  if fd.length ≠ r.height then (r, some PyErr.valueError)
  else
    match fd.head? with
    | none => (r, some PyErr.indexError)
    | some row0 =>
      if row0.length ≠ r.width then (r, some PyErr.valueError)
      else load_rows r.char_map fd r.width r.height 0 r

/-- The per-cell chunk appended to `line_str` by `render`: the
foreground-color escape, the glyph, and the reset when the color code is
valid (`!= -1`; `None` does not arise in this model), otherwise just the
glyph. -/
def render_cell (cell : Cell) : String :=
  if cell.2 ≠ -1 then
    "\x1b[38;5;" ++ toString cell.2 ++ "m" ++ String.singleton cell.1 ++ "\x1b[0m"
  else String.singleton cell.1

/-- The inner `for c in range(self.width)` loop of `render`, building
`line_str` from column `j` on (`fuel` counts the remaining columns);
`none` models the `IndexError` on a row shorter than `width`. -/
def render_cols (row : List Cell) : ℕ → ℕ → String → Option String
  | 0, _, acc => some acc
  | fuel + 1, j, acc =>
    match row.get? j with
    | none => none
    | some cell => render_cols row fuel (j + 1) (acc ++ render_cell cell)

/-- The outer `for r in range(self.height)` loop of `render`, collecting
`output_lines`. -/
def render_rows (buf : List (List Cell)) (w : ℕ) :
    ℕ → ℕ → List String → Option (List String)
  | 0, _, acc => some acc
  | fuel + 1, i, acc =>
    match buf.get? i with
    | none => none
    | some row =>
      match render_cols row w 0 "" with
      | none => none
      | some line => render_rows buf w fuel (i + 1) (acc ++ [line])

/-- `AsciiRenderer.render`: the payloads of the two `print` calls, in
order — the home+clear escape (printed with `end=""`), then all rows
joined with newlines, written in one operation (with the trailing newline
that `print` appends). -/
def render (r : AsciiRenderer) : Option (List String) :=
  match render_rows r.buffer r.width r.height 0 [] with
  | none => none
  | some lines => some ["\x1b[H\x1b[J", String.intercalate "\n" lines ++ "\n"]

/-- Modelled from the claim's words, for comparison with `render_cell`:
emit only the glyph when the cell's color is the no-color sentinel, and
otherwise the foreground-color-set escape carrying the palette index, then
the glyph, then the color-reset escape. -/
def render_cell_spec (cell : Cell) : String :=
  if cell.2 = -1 then String.singleton cell.1
  else "\x1b[38;5;" ++ toString cell.2 ++ "m" ++ String.singleton cell.1 ++ "\x1b[0m"

/-- The time bookkeeping of the `run` loop: `last_time` and
`last_update_time`, both initialized to `time.perf_counter()`. -/
structure RunState where
  last_time : ℚ
  last_update_time : ℚ
  deriving DecidableEq

/-- One iteration of the `while self.running` loop of `run`, restricted to
its time bookkeeping and the fixed-step logic update: at sampled time `t`
it computes `frame_dt` and advances `last_time`; when an update callback
is present, `update_duration > 0`, and the elapsed time since the last
logic update has reached `update_duration`, it invokes the callback with
the constant `fixed_dt` and records the update timestamp.  Returns the new
state and the `dt` passed to the callback, if any. -/
def run_step (has_update : Bool) (update_duration fixed_dt : ℚ)
    (s : RunState) (t : ℚ) : RunState × Option ℚ :=
  let _frame_dt := t - s.last_time
  let s1 : RunState := { last_time := t, last_update_time := s.last_update_time }
  if has_update = true ∧ 0 < update_duration ∧ update_duration ≤ t - s.last_update_time then
    ({ s1 with last_update_time := t }, some fixed_dt)
  else (s1, none)

/-- The sequence of `dt` values passed to the logic-update callback over an
injected sequence of sampled clock times. -/
def run_trace (has_update : Bool) (update_duration fixed_dt : ℚ) :
    RunState → List ℚ → List ℚ
  | _, [] => []
  | s, t :: ts =>
    match run_step has_update update_duration fixed_dt s t with
    | (s', none) => run_trace has_update update_duration fixed_dt s' ts
    | (s', some dt) => dt :: run_trace has_update update_duration fixed_dt s' ts

/-- The `run` loop's logic-update schedule with `game_speed = g`, started
at time `t0` (`last_time = last_update_time = t0`), driven by an injected
deterministic clock: `update_duration = 1/g if g > 0 else 0` and
`fixed_dt = update_duration`. -/
def run_logic_trace (has_update : Bool) (g : ℚ) (t0 : ℚ) (clock : List ℚ) : List ℚ :=
  run_trace has_update (if 0 < g then 1 / g else 0) (if 0 < g then 1 / g else 0)
    { last_time := t0, last_update_time := t0 } clock

/-- An ideal injected clock: `n` samples at exact multiples of the frame
period `s` (the pacing a loop at render rate `1/s` aims for). -/
def frame_clock (s : ℚ) (n : ℕ) : List ℚ :=
  (List.range n).map (fun k => ((k + 1 : ℕ) : ℚ) * s)

/-- The observable behaviour of one iteration of the `while self.running`
body, as driven by the user callbacks: the iteration completes normally,
completes after `quit()` was called (clearing `self.running`), or a
callback raises `KeyboardInterrupt` or some other exception. -/
inductive IterEvent where
  | tick
  | quitEvent
  | keyboardInterrupt
  | userError
  deriving DecidableEq

/-- How the `try` body of `run` finishes. -/
inductive LoopExit where
  | stopped
  | interrupted
  | errored
  deriving DecidableEq

/-- How `run` itself finishes: a normal return, or a user-callback
exception propagating to the caller (the core does not catch it). -/
inductive RunOutcome where
  | normal
  | propagated
  deriving DecidableEq

/-- The `while self.running` loop of `run`: one script event per
iteration; every completed iteration renders one frame (its output
abstracted as the string `"frame"`); `quit()` clears the running flag,
which is checked at the top of the next iteration; an interrupt or a
callback exception aborts the body there.  An exhausted script means the
loop observed `running = false`. -/
def loop_body : Bool → List IterEvent → List String × LoopExit
  | false, _ => ([], LoopExit.stopped)
  | true, [] => ([], LoopExit.stopped)
  | true, ev :: rest =>
    match ev with
    | IterEvent.keyboardInterrupt => ([], LoopExit.interrupted)
    | IterEvent.userError => ([], LoopExit.errored)
    | IterEvent.tick =>
      let out := loop_body true rest
      ("frame" :: out.1, out.2)
    | IterEvent.quitEvent =>
      let out := loop_body false rest
      ("frame" :: out.1, out.2)

/-- `AsciiRenderer.run`: with no update and no draw callback it reports a
configuration error and returns before entering the loop; otherwise the
loop body runs inside `try/except KeyboardInterrupt/finally`: the `except`
arm prints the interruption message and clears `running`, and the
`finally` arm always emits the show-cursor escape `ESC[?25h` and the exit
message — also while a user-callback exception is propagating to the
caller.  Result: the ordered list of outputs and how `run` finishes. -/
def run (has_callbacks : Bool) (script : List IterEvent) : List String × RunOutcome :=
  if has_callbacks then
    match loop_body true script with
    | (out, LoopExit.stopped) =>
      (out ++ ["\x1b[?25h", "Exiting renderer loop.\n"], RunOutcome.normal)
    | (out, LoopExit.interrupted) =>
      (out ++ ["\nLoop terminated by user (KeyboardInterrupt).\n",
        "\x1b[?25h", "Exiting renderer loop.\n"], RunOutcome.normal)
    | (out, LoopExit.errored) =>
      (out ++ ["\x1b[?25h", "Exiting renderer loop.\n"], RunOutcome.propagated)
  else
    (["Error: No update or draw function provided to run().\n",
      "Please define update(dt) and/or draw(screen) functions \n",
      "or pass them to the AsciiRenderer constructor.\n"], RunOutcome.normal)

/-- `Rat.floor` agrees with the `Int.floor` of the rational. -/
theorem rat_floor_eq_intFloor (q : ℚ) : q.floor = ⌊q⌋ := by
  rw [Rat.floor_def', Rat.floor_def]

theorem py_int_of_nonneg {q : ℚ} (h : 0 ≤ q) : py_int q = ⌊q⌋ := by
  rw [py_int, if_pos h, rat_floor_eq_intFloor]

theorem py_int_of_neg {q : ℚ} (h : q < 0) : py_int q = ⌈q⌉ := by
  rw [py_int, if_neg (not_le.mpr h), rat_floor_eq_intFloor, Int.floor_neg, neg_neg]

theorem py_index_nonneg {α : Type} (l : List α) (i : ℤ) (h : 0 ≤ i) :
    py_index l i = l.get? i.toNat := by
  rw [py_index, if_pos h]

/-- Truncation toward zero of an integer quotient is `Int.tdiv`; this makes
concrete index computations kernel-evaluable. -/
theorem py_int_intCast_div (a : ℤ) (b : ℕ) (hb : 0 < b) :
    py_int ((a : ℚ) / (b : ℚ)) = a.tdiv b := by
  have hb' : (0 : ℚ) < (b : ℚ) := by exact_mod_cast hb
  rcases le_or_lt 0 a with ha | ha
  · have hq : (0 : ℚ) ≤ (a : ℚ) / (b : ℚ) :=
      div_nonneg (by exact_mod_cast ha) (le_of_lt hb')
    rw [py_int_of_nonneg hq, Rat.floor_intCast_div_natCast,
      Int.tdiv_eq_ediv ha (by exact_mod_cast Nat.zero_le b)]
  · have hq : (a : ℚ) / (b : ℚ) < 0 :=
      div_neg_of_neg_of_pos (by exact_mod_cast ha) hb'
    have hceil : ⌈(a : ℚ) / (b : ℚ)⌉ = -⌊((-a : ℤ) : ℚ) / (b : ℚ)⌋ := by
      rw [show ((-a : ℤ) : ℚ) / (b : ℚ) = -((a : ℚ) / (b : ℚ)) by push_cast; ring,
        Int.floor_neg, neg_neg]
    rw [py_int_of_neg hq, hceil, Rat.floor_intCast_div_natCast,
      ← Int.tdiv_eq_ediv (by omega) (by exact_mod_cast Nat.zero_le b), Int.neg_tdiv, neg_neg]

/-- `int()` of an exact integer is itself. -/
theorem py_int_intCast (k : ℤ) : py_int (k : ℚ) = k := by
  rcases le_or_lt 0 k with h | h
  · rw [py_int_of_nonneg (by exact_mod_cast h), Int.floor_intCast]
  · rw [py_int_of_neg (by exact_mod_cast h), Int.ceil_intCast]

/-- Truncation toward zero is monotone. -/
theorem py_int_mono {q q' : ℚ} (h : q ≤ q') : py_int q ≤ py_int q' := by
  rcases le_or_lt 0 q with hq | hq
  · rw [py_int_of_nonneg hq, py_int_of_nonneg (le_trans hq h)]
    exact Int.floor_le_floor h
  · rcases le_or_lt 0 q' with hq' | hq'
    · rw [py_int_of_neg hq, py_int_of_nonneg hq']
      calc ⌈q⌉ ≤ 0 := Int.ceil_le.mpr (by exact_mod_cast le_of_lt hq)
        _ ≤ ⌊q'⌋ := Int.le_floor.mpr (by exact_mod_cast hq')
    · rw [py_int_of_neg hq, py_int_of_neg hq']
      exact Int.ceil_le_ceil h

theorem roundHalfEven_intCast (k : ℤ) : roundHalfEven (k : ℚ) = k := by
  rw [roundHalfEven, Int.floor_intCast, if_pos (by norm_num)]

theorem roundHalfEven_ge (y : ℚ) : y - 1 / 2 ≤ (roundHalfEven y : ℚ) := by
  have h1 := Int.floor_le y
  have h2 := Int.lt_floor_add_one y
  rw [roundHalfEven]
  split
  · rename_i h; linarith
  · split
    · rename_i h h'; push_cast; linarith
    · split
      · rename_i h h' h''
        have : y - (⌊y⌋ : ℚ) = 1 / 2 := le_antisymm (not_lt.mp h') (not_lt.mp h)
        linarith
      · rename_i h h' h''
        push_cast; linarith

theorem roundHalfEven_le (y : ℚ) : (roundHalfEven y : ℚ) ≤ y + 1 / 2 := by
  have h1 := Int.floor_le y
  have h2 := Int.lt_floor_add_one y
  rw [roundHalfEven]
  split
  · rename_i h; linarith
  · split
    · rename_i h h'; push_cast; linarith
    · split
      · rename_i h h' h''; linarith
      · rename_i h h' h''
        have : y - (⌊y⌋ : ℚ) = 1 / 2 := le_antisymm (not_lt.mp h') (not_lt.mp h)
        push_cast; linarith

/-- If `y` lies strictly within half a unit of the integer `k`, the
half-even rounding of `y` is `k`. -/
theorem roundHalfEven_eq_of_near (y : ℚ) (k : ℤ) (h : |y - (k : ℚ)| < 1 / 2) :
    roundHalfEven y = k := by
  rw [abs_sub_lt_iff] at h
  rcases le_or_lt (k : ℚ) y with hk | hk
  · have hfl : ⌊y⌋ = k := Int.floor_eq_iff.mpr ⟨hk, by linarith [h.1]⟩
    rw [roundHalfEven, hfl, if_pos (by linarith [h.1])]
  · have hfl : ⌊y⌋ = k - 1 := by
      rw [Int.floor_eq_iff]
      push_cast
      constructor <;> linarith [h.2]
    rw [roundHalfEven, hfl, if_neg (by push_cast; linarith [h.2]),
      if_pos (by push_cast; linarith [h.2])]
    omega

/-- Half-even rounding is monotone. -/
theorem roundHalfEven_mono {y y' : ℚ} (h : y ≤ y') :
    roundHalfEven y ≤ roundHalfEven y' := by
  by_contra hc
  push_neg at hc
  have h1 := roundHalfEven_le y
  have h2 := roundHalfEven_ge y'
  have h3 : (roundHalfEven y' : ℚ) + 1 ≤ (roundHalfEven y : ℚ) := by exact_mod_cast hc
  have heq : y = y' := le_antisymm h (by linarith)
  subst heq
  exact absurd hc (lt_irrefl _)

/-- `Int.log 2` is determined by the binade bounds. -/
theorem int_log2_unique (x : ℚ) (hx : 0 < x) (u : ℤ)
    (h1 : (2 : ℚ) ^ u ≤ x) (h2 : x < (2 : ℚ) ^ (u + 1)) : Int.log 2 x = u := by
  have hl := Int.zpow_log_le_self (b := 2) (by norm_num) hx
  have hr := Int.lt_zpow_succ_log_self (b := 2) (by norm_num) x
  rw [Nat.cast_ofNat] at hl hr
  by_contra hne
  rcases lt_or_gt_of_ne hne with hlt | hgt
  · have hb : (2 : ℚ) ^ (Int.log 2 x + 1) ≤ 2 ^ u :=
      zpow_le_zpow_right₀ (by norm_num) (by omega)
    linarith
  · have hb : (2 : ℚ) ^ (u + 1) ≤ 2 ^ (Int.log 2 x) :=
      zpow_le_zpow_right₀ (by norm_num) (by omega)
    linarith

theorem round64_zero : round64 0 = 0 := by rw [round64, if_pos rfl]

theorem round64_of_pos {q : ℚ} (hq : 0 < q) : round64 q = round64Pos q := by
  rw [round64, if_neg (ne_of_gt hq), if_pos hq]

theorem round64_neg (q : ℚ) : round64 (-q) = -round64 q := by
  rcases lt_trichotomy q 0 with h | h | h
  · rw [round64_of_pos (by linarith : (0 : ℚ) < -q), round64, if_neg (ne_of_lt h),
      if_neg (not_lt.mpr (le_of_lt h)), neg_neg]
  · subst h; simp [round64_zero]
  · rw [round64_of_pos h, round64, if_neg (neg_ne_zero.mpr (ne_of_gt h)),
      if_neg (by linarith), neg_neg]

/-- The scaled mantissa of a positive rational lies in `[2^52, 2^53]`. -/
theorem round64Pos_mantissa {x : ℚ} (hx : 0 < x) :
    2 ^ 52 ≤ roundHalfEven (x / 2 ^ (Int.log 2 x - 52)) ∧
    roundHalfEven (x / 2 ^ (Int.log 2 x - 52)) ≤ 2 ^ 53 := by
  have hpow : (0 : ℚ) < 2 ^ (Int.log 2 x - 52) := zpow_pos (by norm_num) _
  have hl := Int.zpow_log_le_self (b := 2) (by norm_num) hx
  have hr := Int.lt_zpow_succ_log_self (b := 2) (by norm_num) x
  rw [Nat.cast_ofNat] at hl hr
  have hcol : ((2 : ℚ) ^ (52 : ℤ)) * 2 ^ (Int.log 2 x - 52) = 2 ^ (Int.log 2 x) := by
    rw [← zpow_add₀ (by norm_num : (2 : ℚ) ≠ 0)]
    congr 1
    ring
  have hcol2 : ((2 : ℚ) ^ (53 : ℤ)) * 2 ^ (Int.log 2 x - 52) = 2 ^ (Int.log 2 x + 1) := by
    rw [← zpow_add₀ (by norm_num : (2 : ℚ) ≠ 0)]
    congr 1
    ring
  have hy1 : (2 : ℚ) ^ (52 : ℤ) ≤ x / 2 ^ (Int.log 2 x - 52) := by
    rw [le_div_iff₀ hpow, hcol]
    exact hl
  have hy2 : x / 2 ^ (Int.log 2 x - 52) < (2 : ℚ) ^ (53 : ℤ) := by
    rw [div_lt_iff₀ hpow, hcol2]
    exact hr
  constructor
  · have hb := roundHalfEven_ge (x / 2 ^ (Int.log 2 x - 52))
    have : ((2 ^ 52 - 1 : ℤ) : ℚ) < (roundHalfEven (x / 2 ^ (Int.log 2 x - 52)) : ℚ) := by
      push_cast
      have h252 : ((2 : ℚ) ^ (52 : ℤ)) = 2 ^ (52 : ℕ) := by norm_num
      rw [h252] at hy1
      linarith
    have h' : (2 ^ 52 : ℤ) - 1 < roundHalfEven (x / 2 ^ (Int.log 2 x - 52)) := by
      exact_mod_cast this
    have := Int.lt_iff_add_one_le.mp h'
    linarith
  · have hb := roundHalfEven_le (x / 2 ^ (Int.log 2 x - 52))
    have : (roundHalfEven (x / 2 ^ (Int.log 2 x - 52)) : ℚ) < ((2 ^ 53 + 1 : ℤ) : ℚ) := by
      push_cast
      have h253 : ((2 : ℚ) ^ (53 : ℤ)) = 2 ^ (53 : ℕ) := by norm_num
      rw [h253] at hy2
      linarith
    have h' : roundHalfEven (x / 2 ^ (Int.log 2 x - 52)) < (2 ^ 53 : ℤ) + 1 := by
      exact_mod_cast this
    have := Int.lt_iff_add_one_le.mp h'
    linarith

theorem round64Pos_ge_bound {x : ℚ} (hx : 0 < x) :
    (2 : ℚ) ^ (Int.log 2 x) ≤ round64Pos x := by
  have hpow : (0 : ℚ) < 2 ^ (Int.log 2 x - 52) := zpow_pos (by norm_num) _
  have hm := (round64Pos_mantissa hx).1
  rw [round64Pos]
  calc (2 : ℚ) ^ (Int.log 2 x)
      = ((2 : ℚ) ^ (52 : ℤ)) * 2 ^ (Int.log 2 x - 52) := by
        rw [← zpow_add₀ (by norm_num : (2 : ℚ) ≠ 0)]
        congr 1
        ring
    _ ≤ (roundHalfEven (x / 2 ^ (Int.log 2 x - 52)) : ℚ) * 2 ^ (Int.log 2 x - 52) := by
        apply mul_le_mul_of_nonneg_right _ (le_of_lt hpow)
        have : ((2 ^ 52 : ℤ) : ℚ) ≤ (roundHalfEven (x / 2 ^ (Int.log 2 x - 52)) : ℚ) := by
          exact_mod_cast hm
        push_cast at this
        norm_num
        exact_mod_cast hm

theorem round64Pos_le_bound {x : ℚ} (hx : 0 < x) :
    round64Pos x ≤ (2 : ℚ) ^ (Int.log 2 x + 1) := by
  have hpow : (0 : ℚ) < 2 ^ (Int.log 2 x - 52) := zpow_pos (by norm_num) _
  have hm := (round64Pos_mantissa hx).2
  rw [round64Pos]
  calc (roundHalfEven (x / 2 ^ (Int.log 2 x - 52)) : ℚ) * 2 ^ (Int.log 2 x - 52)
      ≤ ((2 ^ 53 : ℤ) : ℚ) * 2 ^ (Int.log 2 x - 52) := by
        apply mul_le_mul_of_nonneg_right _ (le_of_lt hpow)
        exact_mod_cast hm
    _ = (2 : ℚ) ^ (Int.log 2 x + 1) := by
        rw [show ((2 ^ 53 : ℤ) : ℚ) = (2 : ℚ) ^ (53 : ℤ) by norm_num,
          ← zpow_add₀ (by norm_num : (2 : ℚ) ≠ 0)]
        congr 1
        ring

theorem round64Pos_pos {x : ℚ} (hx : 0 < x) : 0 < round64Pos x :=
  lt_of_lt_of_le (zpow_pos (by norm_num) _) (round64Pos_ge_bound hx)

theorem round64_nonneg {q : ℚ} (h : 0 ≤ q) : 0 ≤ round64 q := by
  rcases eq_or_lt_of_le h with h0 | h0
  · rw [← h0, round64_zero]
  · rw [round64_of_pos h0]
    exact le_of_lt (round64Pos_pos h0)

theorem round64_nonpos {q : ℚ} (h : q ≤ 0) : round64 q ≤ 0 := by
  have := round64_neg (-q)
  rw [neg_neg] at this
  rw [this]
  simp only [neg_nonpos]
  exact round64_nonneg (by linarith)

/-- A positive integer below `2^53` times a power of two is a binary64
value: rounding it to binary64 is the identity. -/
theorem round64_exact_aux (m e : ℤ) (hm0 : 0 < m) (hm53 : m < 2 ^ 53) :
    round64 ((m : ℚ) * 2 ^ e) = (m : ℚ) * 2 ^ e := by
  have hq : 0 < (m : ℚ) * 2 ^ e :=
    mul_pos (by exact_mod_cast hm0) (zpow_pos (by norm_num) _)
  have hl1 : 2 ^ Nat.log2 m.toNat ≤ m.toNat := Nat.log2_self_le (by omega)
  have hl2 : m.toNat < 2 ^ (Nat.log2 m.toNat + 1) := Nat.lt_log2_self
  have hl52 : Nat.log2 m.toNat ≤ 52 := by
    by_contra hcon
    push_neg at hcon
    have hp : (2 : ℕ) ^ 53 ≤ 2 ^ Nat.log2 m.toNat := Nat.pow_le_pow_right (by norm_num) hcon
    have hmt : m.toNat < 2 ^ 53 := by omega
    omega
  have hml : ((2 : ℚ) ^ ((Nat.log2 m.toNat : ℕ) : ℤ)) ≤ (m : ℚ) := by
    rw [zpow_natCast]
    have hmn : (m.toNat : ℤ) = m := Int.toNat_of_nonneg (by omega)
    rw [← hmn]
    exact_mod_cast hl1
  have hml2 : (m : ℚ) < (2 : ℚ) ^ (((Nat.log2 m.toNat : ℕ) : ℤ) + 1) := by
    rw [show (((Nat.log2 m.toNat : ℕ) : ℤ) + 1) = ((Nat.log2 m.toNat + 1 : ℕ) : ℤ) by push_cast; ring,
      zpow_natCast]
    have hmn : (m.toNat : ℤ) = m := Int.toNat_of_nonneg (by omega)
    rw [← hmn]
    exact_mod_cast hl2
  have hpe : (0 : ℚ) < 2 ^ e := zpow_pos (by norm_num) _
  have hq1 : (2 : ℚ) ^ (e + Nat.log2 m.toNat) ≤ (m : ℚ) * 2 ^ e := by
    rw [show (e + (Nat.log2 m.toNat : ℤ)) = (Nat.log2 m.toNat : ℤ) + e by ring,
      zpow_add₀ (by norm_num : (2 : ℚ) ≠ 0)]
    exact mul_le_mul_of_nonneg_right hml (le_of_lt hpe)
  have hq2 : (m : ℚ) * 2 ^ e < (2 : ℚ) ^ ((e + Nat.log2 m.toNat) + 1) := by
    rw [show ((e + (Nat.log2 m.toNat : ℤ)) + 1) = ((Nat.log2 m.toNat : ℤ) + 1) + e by ring,
      zpow_add₀ (by norm_num : (2 : ℚ) ≠ 0)]
    exact mul_lt_mul_of_pos_right hml2 hpe
  have hE : Int.log 2 ((m : ℚ) * 2 ^ e) = e + Nat.log2 m.toNat :=
    int_log2_unique _ hq _ hq1 hq2
  rw [round64_of_pos hq, round64Pos, hE]
  have hy : ((m : ℚ) * 2 ^ e) / 2 ^ (e + (Nat.log2 m.toNat : ℤ) - 52)
      = ((m * 2 ^ (52 - Nat.log2 m.toNat) : ℤ) : ℚ) := by
    rw [div_eq_iff (ne_of_gt (zpow_pos (by norm_num) _))]
    push_cast
    rw [← zpow_natCast (2 : ℚ) (52 - Nat.log2 m.toNat),
      show ((52 - Nat.log2 m.toNat : ℕ) : ℤ) = 52 - (Nat.log2 m.toNat : ℤ) by omega,
      mul_assoc, ← zpow_add₀ (by norm_num : (2 : ℚ) ≠ 0),
      show (52 - (Nat.log2 m.toNat : ℤ) + (e + (Nat.log2 m.toNat : ℤ) - 52)) = e by ring]
  rw [hy, roundHalfEven_intCast]
  push_cast
  rw [← zpow_natCast (2 : ℚ) (52 - Nat.log2 m.toNat),
    show ((52 - Nat.log2 m.toNat : ℕ) : ℤ) = 52 - (Nat.log2 m.toNat : ℤ) by omega,
    mul_assoc, ← zpow_add₀ (by norm_num : (2 : ℚ) ≠ 0),
    show (52 - (Nat.log2 m.toNat : ℤ) + (e + (Nat.log2 m.toNat : ℤ) - 52)) = e by ring]

/-- Any integer of magnitude at most `2^53` times a power of two rounds to
itself in binary64. -/
theorem round64_exact (m e : ℤ) (hm : |m| ≤ 2 ^ 53) :
    round64 ((m : ℚ) * 2 ^ e) = (m : ℚ) * 2 ^ e := by
  have hpos : ∀ m' : ℤ, ∀ e' : ℤ, 0 < m' → m' ≤ 2 ^ 53 →
      round64 ((m' : ℚ) * 2 ^ e') = (m' : ℚ) * 2 ^ e' := by
    intro m' e' h0 h53
    rcases eq_or_lt_of_le h53 with heq | hlt
    · rw [heq]
      rw [show (((2 ^ 53 : ℤ) : ℚ)) * 2 ^ e' = ((2 ^ 52 : ℤ) : ℚ) * 2 ^ (e' + 1) by
        push_cast
        rw [zpow_add_one₀ (by norm_num : (2 : ℚ) ≠ 0)]
        ring]
      exact round64_exact_aux (2 ^ 52) (e' + 1) (by norm_num) (by norm_num)
    · exact round64_exact_aux m' e' h0 hlt
  rcases lt_trichotomy m 0 with hneg | hzero | hposm
  · have h1 : ((m : ℚ) * 2 ^ e) = -(((-m : ℤ) : ℚ) * 2 ^ e) := by push_cast; ring
    rw [h1, round64_neg, hpos (-m) e (by omega) (by rw [abs_le] at hm; omega)]
  · subst hzero
    simp [round64_zero]
  · exact hpos m e hposm (by rw [abs_le] at hm; omega)

/-- Integers up to `2^53` in magnitude are exactly representable. -/
theorem round64_intCast (k : ℤ) (hk : |k| ≤ 2 ^ 53) : round64 (k : ℚ) = k := by
  have h := round64_exact k 0 hk
  simpa using h

/-- The binary64 rounding of `q`, located by its binade `[2^E, 2^(E+1))`
and a mantissa `m` with `|q - m·2^(E-52)| < ulp/2` (no tie). -/
theorem round64_eq_of_near (q : ℚ) (E m : ℤ) (hq1 : (2 : ℚ) ^ E ≤ q)
    (hq2 : q < 2 ^ (E + 1))
    (hnear : |q - (m : ℚ) * 2 ^ (E - 52)| < 2 ^ (E - 52) / 2) :
    round64 q = (m : ℚ) * 2 ^ (E - 52) := by
  have hq : 0 < q := lt_of_lt_of_le (zpow_pos (by norm_num) E) hq1
  have hE := int_log2_unique q hq E hq1 hq2
  rw [round64_of_pos hq, round64Pos, hE]
  have hpow : (0 : ℚ) < 2 ^ (E - 52) := zpow_pos (by norm_num) _
  have hy : |q / 2 ^ (E - 52) - (m : ℚ)| < 1 / 2 := by
    rw [show q / 2 ^ (E - 52) - (m : ℚ) = (q - (m : ℚ) * 2 ^ (E - 52)) / 2 ^ (E - 52) by
      field_simp
      ring]
    rw [abs_div, abs_of_pos hpow, div_lt_iff₀ hpow]
    calc |q - (m : ℚ) * 2 ^ (E - 52)| < 2 ^ (E - 52) / 2 := hnear
      _ = 1 / 2 * 2 ^ (E - 52) := by ring
  rw [roundHalfEven_eq_of_near _ _ hy]

/-- As `round64_eq_of_near`, with the scale exponent `e = E - 52` given
directly so concrete instances can use a literal exponent. -/
theorem round64_eq_of_near_e (q : ℚ) (E e m : ℤ) (he : E - 52 = e)
    (hq1 : (2 : ℚ) ^ E ≤ q) (hq2 : q < 2 ^ (E + 1))
    (hnear : |q - (m : ℚ) * 2 ^ e| < 2 ^ e / 2) :
    round64 q = (m : ℚ) * 2 ^ e := by
  subst he
  exact round64_eq_of_near q E m hq1 hq2 hnear

theorem round64_mono_pos {q q' : ℚ} (hq : 0 < q) (h : q ≤ q') :
    round64 q ≤ round64 q' := by
  have hq' : 0 < q' := lt_of_lt_of_le hq h
  rw [round64_of_pos hq, round64_of_pos hq']
  have hEE : Int.log 2 q ≤ Int.log 2 q' := Int.log_mono_right hq h
  rcases eq_or_lt_of_le hEE with hE | hE
  · rw [round64Pos, round64Pos, ← hE]
    have hpow : (0 : ℚ) < 2 ^ (Int.log 2 q - 52) := zpow_pos (by norm_num) _
    have hdiv : q / 2 ^ (Int.log 2 q - 52) ≤ q' / 2 ^ (Int.log 2 q - 52) :=
      (div_le_div_iff_of_pos_right hpow).mpr h
    exact mul_le_mul_of_nonneg_right
      (by exact_mod_cast roundHalfEven_mono hdiv) (le_of_lt hpow)
  · calc round64Pos q ≤ 2 ^ (Int.log 2 q + 1) := round64Pos_le_bound hq
      _ ≤ 2 ^ (Int.log 2 q') := zpow_le_zpow_right₀ (by norm_num) (by omega)
      _ ≤ round64Pos q' := round64Pos_ge_bound hq'

/-- Binary64 rounding is monotone. -/
theorem round64_mono {q q' : ℚ} (h : q ≤ q') : round64 q ≤ round64 q' := by
  rcases le_or_lt q 0 with hq | hq
  · rcases le_or_lt q' 0 with hq' | hq'
    · rcases eq_or_lt_of_le hq' with h0 | h0
      · rw [h0, round64_zero]
        exact round64_nonpos hq
      · have hmono := round64_mono_pos (by linarith : (0 : ℚ) < -q')
          (by linarith : -q' ≤ -q)
        have e1 := round64_neg q
        have e2 := round64_neg q'
        linarith
    · exact le_trans (round64_nonpos hq) (round64_nonneg (le_of_lt hq'))
  · exact round64_mono_pos hq h

/-- Unfolds `map_intensity_to_char` stage by stage: given evaluations of
the three roundings and the truncation, the mapper is Python indexing at
the computed index. -/
theorem map_intensity_pipeline (cm : List Char) (v : ℤ) (d1 d2 p : ℚ) (idx : ℤ)
    (h1 : round64 ((v : ℚ) / 255) = d1)
    (h2 : round64 ((cm.length : ℚ) - 1) = d2)
    (h3 : round64 (d1 * d2) = p) (h4 : py_int p = idx) :
    map_intensity_to_char cm v = py_index cm idx := by
  rw [map_intensity_to_char, map_index, h1, h2, h3, h4]

/-- Intensity `0` always maps to the first glyph slot. -/
theorem map_intensity_zero (cm : List Char) :
    map_intensity_to_char cm 0 = cm.get? 0 := by
  have h := map_intensity_pipeline cm 0 0 (round64 ((cm.length : ℚ) - 1)) 0 0
    (by rw [show (((0 : ℤ) : ℚ)) / 255 = 0 by norm_num, round64_zero]) rfl
    (by rw [zero_mul, round64_zero])
    (by rw [show (0 : ℚ) = ((0 : ℤ) : ℚ) by norm_num, py_int_intCast])
  rw [h, py_index_nonneg _ _ le_rfl]
  rfl

/-- A glyph count of at most `2^53` makes the binary64 conversion of
`len(char_map) - 1` exact. -/
theorem round64_length_sub_one (cm : List Char) (hn : cm.length ≤ 2 ^ 53) :
    round64 ((cm.length : ℚ) - 1) = (cm.length : ℚ) - 1 := by
  have hcast : ((cm.length : ℚ) - 1) = (((cm.length : ℤ) - 1 : ℤ) : ℚ) * 2 ^ (0 : ℤ) := by
    push_cast
    ring
  have hb : |(cm.length : ℤ) - 1| ≤ 2 ^ 53 := by
    have h53 : (cm.length : ℤ) ≤ 2 ^ 53 := by exact_mod_cast hn
    have h0 : (0 : ℤ) ≤ (cm.length : ℤ) := by exact_mod_cast Nat.zero_le _
    rw [abs_le]
    omega
  rw [hcast, round64_exact _ _ hb]

theorem py_int_length_sub_one (cm : List Char) :
    py_int ((cm.length : ℚ) - 1) = (cm.length : ℤ) - 1 := by
  rw [show ((cm.length : ℚ) - 1) = (((cm.length : ℤ) - 1 : ℤ) : ℚ) by push_cast; ring,
    py_int_intCast]

/-- On the documented intensity range `0..255` the computed index stays
inside the ramp. -/
theorem map_index_in_range (cm : List Char) (v : ℤ) (h1 : 1 ≤ cm.length)
    (hn : cm.length ≤ 2 ^ 53) (h0 : 0 ≤ v) (h255 : v ≤ 255) :
    0 ≤ map_index cm v ∧ map_index cm v ≤ (cm.length : ℤ) - 1 := by
  have hd2 := round64_length_sub_one cm hn
  have hd2n : (0 : ℚ) ≤ (cm.length : ℚ) - 1 := by
    have h1q : (1 : ℚ) ≤ (cm.length : ℚ) := by exact_mod_cast h1
    linarith
  have hd1a : 0 ≤ round64 ((v : ℚ) / 255) := by
    have hmono := round64_mono (show (0 : ℚ) ≤ (v : ℚ) / 255 from
      div_nonneg (by exact_mod_cast h0) (by norm_num))
    rwa [round64_zero] at hmono
  have hd1b : round64 ((v : ℚ) / 255) ≤ 1 := by
    have hle : (v : ℚ) / 255 ≤ 1 := by
      rw [div_le_one (by norm_num)]
      exact_mod_cast h255
    have hmono := round64_mono hle
    rwa [show round64 (1 : ℚ) = 1 by
      simpa using round64_intCast 1 (by norm_num)] at hmono
  have hzero : py_int 0 = 0 := by
    rw [show (0 : ℚ) = ((0 : ℤ) : ℚ) by norm_num, py_int_intCast]
  constructor
  · rw [map_index, hd2]
    have hp : 0 ≤ round64 (round64 ((v : ℚ) / 255) * ((cm.length : ℚ) - 1)) :=
      round64_nonneg (mul_nonneg hd1a hd2n)
    calc (0 : ℤ) = py_int 0 := hzero.symm
      _ ≤ _ := py_int_mono hp
  · rw [map_index, hd2]
    have hple : round64 ((v : ℚ) / 255) * ((cm.length : ℚ) - 1) ≤ (cm.length : ℚ) - 1 := by
      calc round64 ((v : ℚ) / 255) * ((cm.length : ℚ) - 1)
          ≤ 1 * ((cm.length : ℚ) - 1) := mul_le_mul_of_nonneg_right hd1b hd2n
        _ = (cm.length : ℚ) - 1 := one_mul _
    have hr := round64_mono hple
    rw [hd2] at hr
    calc py_int _ ≤ py_int ((cm.length : ℚ) - 1) := py_int_mono hr
      _ = (cm.length : ℤ) - 1 := py_int_length_sub_one cm

/-- The index is monotone in the intensity (no range restriction). -/
theorem map_index_mono (cm : List Char) (h1 : 1 ≤ cm.length) {v₁ v₂ : ℤ}
    (h : v₁ ≤ v₂) : map_index cm v₁ ≤ map_index cm v₂ := by
  have hd2 : 0 ≤ round64 ((cm.length : ℚ) - 1) := by
    apply round64_nonneg
    have h1q : (1 : ℚ) ≤ (cm.length : ℚ) := by exact_mod_cast h1
    linarith
  apply py_int_mono
  apply round64_mono
  apply mul_le_mul_of_nonneg_right _ hd2
  apply round64_mono
  exact (div_le_div_iff_of_pos_right (by norm_num : (0 : ℚ) < 255)).mpr (by exact_mod_cast h)

/-- Claim C2: on the documented intensity range the mapper follows the
binary64 evaluation of `int((intensity / 255) * (len(char_map) - 1))`: the
index stays in `[0, len-1]`, the returned glyph is `char_map[index]`, the
endpoints hit the first and last glyph, the index is monotone, and the
3-glyph ramp maps 0, 128, 255 to its three glyphs in order. -/
theorem C2_map_intensity (cm : List Char) (h1 : 1 ≤ cm.length)
    (hn : cm.length ≤ 2 ^ 53) :
    (∀ v : ℤ, 0 ≤ v → v ≤ 255 →
      0 ≤ map_index cm v ∧ map_index cm v ≤ (cm.length : ℤ) - 1 ∧
      map_intensity_to_char cm v = cm.get? (map_index cm v).toNat ∧
      (map_intensity_to_char cm v).isSome = true) ∧
    map_intensity_to_char cm 0 = cm.get? 0 ∧
    map_intensity_to_char cm 255 = cm.get? (cm.length - 1) ∧
    (∀ v₁ v₂ : ℤ, v₁ ≤ v₂ → map_index cm v₁ ≤ map_index cm v₂) ∧
    (map_intensity_to_char [' ', '.', '#'] 0 = some ' ' ∧
     map_intensity_to_char [' ', '.', '#'] 128 = some '.' ∧
     map_intensity_to_char [' ', '.', '#'] 255 = some '#') := by
  have hc : (1 : ℤ) ≤ (cm.length : ℤ) := by exact_mod_cast h1
  have hA255 : round64 (((255 : ℤ) : ℚ) / 255) = ((1 : ℤ) : ℚ) := by
    rw [show (((255 : ℤ) : ℚ)) / 255 = ((1 : ℤ) : ℚ) by norm_num]
    exact round64_intCast 1 (by norm_num)
  refine ⟨?_, map_intensity_zero cm, ?_, fun v₁ v₂ h => map_index_mono cm h1 h, ?_, ?_, ?_⟩
  · intro v h0 h255v
    obtain ⟨ha, hb⟩ := map_index_in_range cm v h1 hn h0 h255v
    have hlt : (map_index cm v).toNat < cm.length := by omega
    refine ⟨ha, hb, ?_, ?_⟩
    · rw [map_intensity_to_char, py_index_nonneg _ _ ha]
    · rw [map_intensity_to_char, py_index_nonneg _ _ ha, List.get?_eq_get hlt]
      rfl
  · have hC : round64 (((1 : ℤ) : ℚ) * ((cm.length : ℚ) - 1)) = (cm.length : ℚ) - 1 := by
      rw [show ((1 : ℤ) : ℚ) * ((cm.length : ℚ) - 1) = (cm.length : ℚ) - 1 by
        push_cast
        ring]
      exact round64_length_sub_one cm hn
    have h255 := map_intensity_pipeline cm 255 _ _ _ ((cm.length : ℤ) - 1)
      hA255 (round64_length_sub_one cm hn) hC (py_int_length_sub_one cm)
    rw [h255, py_index_nonneg _ _ (by omega)]
    congr 1
    omega
  · exact map_intensity_zero [' ', '.', '#']
  · have hA128 := round64_eq_of_near_e (((128 : ℤ) : ℚ) / 255) (-1) (-53)
      4521260802379792 (by norm_num) (by norm_num) (by norm_num)
      (by rw [abs_sub_lt_iff]; constructor <;> norm_num)
    have hB3 : round64 (((([' ', '.', '#'] : List Char).length : ℕ) : ℚ) - 1)
        = ((2 : ℤ) : ℚ) := by
      rw [show (((([' ', '.', '#'] : List Char).length : ℕ) : ℚ)) - 1 = ((2 : ℤ) : ℚ) by
        norm_num]
      exact round64_intCast 2 (by norm_num)
    have hC128 : round64 (((4521260802379792 : ℤ) : ℚ) * 2 ^ (-53 : ℤ) * ((2 : ℤ) : ℚ))
        = ((4521260802379792 : ℤ) : ℚ) * 2 ^ (-52 : ℤ) := by
      rw [show ((4521260802379792 : ℤ) : ℚ) * 2 ^ (-53 : ℤ) * ((2 : ℤ) : ℚ)
          = ((4521260802379792 : ℤ) : ℚ) * 2 ^ (-52 : ℤ) by
        rw [mul_assoc, show (2 : ℚ) ^ (-53 : ℤ) * ((2 : ℤ) : ℚ) = 2 ^ (-52 : ℤ) by
          rw [show (-52 : ℤ) = -53 + 1 by norm_num,
            zpow_add_one₀ (by norm_num : (2 : ℚ) ≠ 0)]
          norm_num]]
      exact round64_exact 4521260802379792 (-52) (by norm_num)
    have hD128 : py_int (((4521260802379792 : ℤ) : ℚ) * 2 ^ (-52 : ℤ)) = 1 := by
      rw [show ((4521260802379792 : ℤ) : ℚ) * 2 ^ (-52 : ℤ)
          = ((4521260802379792 : ℤ) : ℚ) / ((2 ^ 52 : ℕ) : ℚ) by
        rw [zpow_neg, div_eq_mul_inv]
        norm_num]
      rw [py_int_intCast_div _ _ (by norm_num)]
      decide
    rw [map_intensity_pipeline _ 128 _ _ _ 1 hA128 hB3 hC128 hD128]
    decide
  · have hB3 : round64 (((([' ', '.', '#'] : List Char).length : ℕ) : ℚ) - 1)
        = ((2 : ℤ) : ℚ) := by
      rw [show (((([' ', '.', '#'] : List Char).length : ℕ) : ℚ)) - 1 = ((2 : ℤ) : ℚ) by
        norm_num]
      exact round64_intCast 2 (by norm_num)
    have hC3 : round64 (((1 : ℤ) : ℚ) * ((2 : ℤ) : ℚ)) = ((2 : ℤ) : ℚ) := by
      rw [show ((1 : ℤ) : ℚ) * ((2 : ℤ) : ℚ) = ((2 : ℤ) : ℚ) by norm_num]
      exact round64_intCast 2 (by norm_num)
    rw [map_intensity_pipeline _ 255 _ _ _ 2 hA255 hB3 hC3 (py_int_intCast 2)]
    decide

theorem C2_map_intensity_witness :
    map_intensity_to_char [' ', '.', '#'] 0 = List.get? [' ', '.', '#'] 0 ∧
    map_intensity_to_char [' ', '.', '#'] 255
      = List.get? [' ', '.', '#'] (List.length [' ', '.', '#'] - 1) :=
  ⟨(C2_map_intensity [' ', '.', '#'] (by decide) (by decide)).2.1,
   (C2_map_intensity [' ', '.', '#'] (by decide) (by decide)).2.2.1⟩

/-- Counterexample to the exact-real reading of the intensity formula: at a
52-glyph ramp and intensity 155, binary64 arithmetic yields index 30
(glyph 'e'), while exact arithmetic floors `155/255*51 = 31` (glyph 'f'). -/
theorem C2_counterexample :
    map_intensity_to_char RAMP52 155 = some 'e' ∧
    RAMP52.get? ((155 * ((RAMP52.length : ℤ) - 1) / 255).toNat) = some 'f' ∧
    map_intensity_to_char RAMP52 155
      ≠ RAMP52.get? ((155 * ((RAMP52.length : ℤ) - 1) / 255).toNat) := by
  have hA := round64_eq_of_near_e (((155 : ℤ) : ℚ) / 255) (-1) (-53)
    5474964252881779 (by norm_num) (by norm_num) (by norm_num)
    (by rw [abs_sub_lt_iff]; constructor <;> norm_num)
  have hB : round64 ((RAMP52.length : ℚ) - 1) = ((51 : ℤ) : ℚ) := by
    rw [show ((RAMP52.length : ℚ)) - 1 = ((51 : ℤ) : ℚ) by
      rw [show RAMP52.length = 52 from rfl]
      norm_num]
    exact round64_intCast 51 (by norm_num)
  have hC := round64_eq_of_near_e
    (((5474964252881779 : ℤ) : ℚ) * 2 ^ (-53 : ℤ) * ((51 : ℤ) : ℚ)) 4 (-48)
    8725724278030335 (by norm_num) (by norm_num) (by norm_num)
    (by rw [abs_sub_lt_iff]; constructor <;> norm_num)
  have hD : py_int (((8725724278030335 : ℤ) : ℚ) * 2 ^ (-48 : ℤ)) = 30 := by
    rw [show ((8725724278030335 : ℤ) : ℚ) * 2 ^ (-48 : ℤ)
        = ((8725724278030335 : ℤ) : ℚ) / ((2 ^ 48 : ℕ) : ℚ) by
      rw [zpow_neg, div_eq_mul_inv]
      norm_num]
    rw [py_int_intCast_div _ _ (by norm_num)]
    decide
  have hmain := map_intensity_pipeline RAMP52 155 _ _ _ 30 hA hB hC hD
  refine ⟨by rw [hmain]; decide, by decide, by rw [hmain]; decide⟩

/-- Claim C3 (amended): the computed index is used unclamped.  For
negative intensities (within the binary64-faithful range `-2^512 ≤ v`) the
index is at most 0: the first glyph comes back only when it is exactly 0,
otherwise Python negative indexing applies, with `IndexError` when even
that is out of range.  For intensities above 255 (within `v ≤ 2^512`) the
index is at least `len-1`, and `IndexError` is raised exactly when it
reaches `len`. -/
theorem C3_unclamped (cm : List Char) (h1 : 1 ≤ cm.length)
    (hn : cm.length ≤ 2 ^ 53) :
    (∀ v : ℤ, -(2 : ℤ) ^ 512 ≤ v → v < 0 →
      map_index cm v ≤ 0 ∧
      (map_index cm v = 0 → map_intensity_to_char cm v = cm.get? 0) ∧
      (map_index cm v < 0 →
        map_intensity_to_char cm v =
          if 0 ≤ (cm.length : ℤ) + map_index cm v then
            cm.get? ((cm.length : ℤ) + map_index cm v).toNat
          else none)) ∧
    (∀ v : ℤ, 255 < v → v ≤ 2 ^ 512 →
      (cm.length : ℤ) - 1 ≤ map_index cm v ∧
      ((cm.length : ℤ) ≤ map_index cm v ↔ map_intensity_to_char cm v = none)) := by
  have hc : (1 : ℤ) ≤ (cm.length : ℤ) := by exact_mod_cast h1
  have hd2 := round64_length_sub_one cm hn
  have hd2n : (0 : ℚ) ≤ (cm.length : ℚ) - 1 := by
    have h1q : (1 : ℚ) ≤ (cm.length : ℚ) := by exact_mod_cast h1
    linarith
  have hzero : py_int 0 = 0 := by
    rw [show (0 : ℚ) = ((0 : ℤ) : ℚ) by norm_num, py_int_intCast]
  constructor
  · intro v hlow hv
    have hd1 : round64 ((v : ℚ) / 255) ≤ 0 := by
      have hle : (v : ℚ) / 255 ≤ 0 :=
        div_nonpos_of_nonpos_of_nonneg (by exact_mod_cast le_of_lt hv) (by norm_num)
      have hmono := round64_mono hle
      rwa [round64_zero] at hmono
    have hidx : map_index cm v ≤ 0 := by
      rw [map_index, hd2]
      have hp : round64 ((v : ℚ) / 255) * ((cm.length : ℚ) - 1) ≤ 0 :=
        mul_nonpos_iff.mpr (Or.inr ⟨hd1, hd2n⟩)
      have hr := round64_nonpos hp
      have hm := py_int_mono hr
      rwa [hzero] at hm
    refine ⟨hidx, ?_, ?_⟩
    · intro h0
      rw [map_intensity_to_char, h0, py_index_nonneg _ _ le_rfl]
      rfl
    · intro hneg
      rw [map_intensity_to_char, py_index, if_neg (not_le.mpr hneg)]
  · intro v hv hvhigh
    have hd1 : (1 : ℚ) ≤ round64 ((v : ℚ) / 255) := by
      have h255 : (255 : ℚ) ≤ (v : ℚ) := by exact_mod_cast le_of_lt hv
      have hle : (1 : ℚ) ≤ (v : ℚ) / 255 := by
        rw [le_div_iff₀ (by norm_num)]
        linarith
      have hmono := round64_mono hle
      rwa [show round64 (1 : ℚ) = 1 by
        simpa using round64_intCast 1 (by norm_num)] at hmono
    have hidx : (cm.length : ℤ) - 1 ≤ map_index cm v := by
      rw [map_index, hd2]
      have hp : (cm.length : ℚ) - 1 ≤ round64 ((v : ℚ) / 255) * ((cm.length : ℚ) - 1) :=
        le_mul_of_one_le_left hd2n hd1
      have hr := round64_mono hp
      rw [hd2] at hr
      have hm := py_int_mono hr
      rwa [py_int_length_sub_one cm] at hm
    have hidx0 : 0 ≤ map_index cm v := by omega
    refine ⟨hidx, ?_, ?_⟩
    · intro hge
      rw [map_intensity_to_char, py_index_nonneg _ _ hidx0, List.get?_eq_none]
      omega
    · intro hnone
      by_contra hlt
      push_neg at hlt
      rw [map_intensity_to_char, py_index_nonneg _ _ hidx0, List.get?_eq_none] at hnone
      omega

theorem C3_unclamped_witness :
    map_index DEFAULT_CHAR_MAP (-255) ≤ 0 ∧
    ((DEFAULT_CHAR_MAP.length : ℤ) ≤ map_index DEFAULT_CHAR_MAP 510 ↔
      map_intensity_to_char DEFAULT_CHAR_MAP 510 = none) :=
  ⟨((C3_unclamped DEFAULT_CHAR_MAP (by decide) (by decide)).1 (-255)
      (by norm_num) (by decide)).1,
   ((C3_unclamped DEFAULT_CHAR_MAP (by decide) (by decide)).2 510
      (by decide) (by norm_num)).2⟩

/-- Counterexample to 'clamped at the ends': on the default 10-glyph ramp,
intensity 510 raises IndexError (index 18) instead of returning the last
glyph, and intensity -255 returns '.' by negative indexing (index -9)
instead of the first glyph. -/
theorem C3_counterexample :
    map_intensity_to_char DEFAULT_CHAR_MAP 510 = none ∧
    map_intensity_to_char DEFAULT_CHAR_MAP (-255) = some '.' ∧
    map_intensity_to_char DEFAULT_CHAR_MAP (-255) ≠ DEFAULT_CHAR_MAP.get? 0 ∧
    map_intensity_to_char DEFAULT_CHAR_MAP 510
      ≠ DEFAULT_CHAR_MAP.get? (DEFAULT_CHAR_MAP.length - 1) := by
  have hB : round64 ((DEFAULT_CHAR_MAP.length : ℚ) - 1) = ((9 : ℤ) : ℚ) := by
    rw [show ((DEFAULT_CHAR_MAP.length : ℚ)) - 1 = ((9 : ℤ) : ℚ) by
      rw [show DEFAULT_CHAR_MAP.length = 10 from rfl]
      norm_num]
    exact round64_intCast 9 (by norm_num)
  have hA510 : round64 (((510 : ℤ) : ℚ) / 255) = ((2 : ℤ) : ℚ) := by
    rw [show (((510 : ℤ) : ℚ)) / 255 = ((2 : ℤ) : ℚ) by norm_num]
    exact round64_intCast 2 (by norm_num)
  have hC510 : round64 (((2 : ℤ) : ℚ) * ((9 : ℤ) : ℚ)) = ((18 : ℤ) : ℚ) := by
    rw [show ((2 : ℤ) : ℚ) * ((9 : ℤ) : ℚ) = ((18 : ℤ) : ℚ) by norm_num]
    exact round64_intCast 18 (by norm_num)
  have h510 := map_intensity_pipeline DEFAULT_CHAR_MAP 510 _ _ _ 18
    hA510 hB hC510 (py_int_intCast 18)
  have hAneg : round64 ((((-255) : ℤ) : ℚ) / 255) = (((-1) : ℤ) : ℚ) := by
    rw [show ((((-255) : ℤ) : ℚ)) / 255 = (((-1) : ℤ) : ℚ) by norm_num]
    exact round64_intCast (-1) (by norm_num)
  have hCneg : round64 ((((-1) : ℤ) : ℚ) * ((9 : ℤ) : ℚ)) = (((-9) : ℤ) : ℚ) := by
    rw [show (((-1) : ℤ) : ℚ) * ((9 : ℤ) : ℚ) = (((-9) : ℤ) : ℚ) by norm_num]
    exact round64_intCast (-9) (by norm_num)
  have hneg := map_intensity_pipeline DEFAULT_CHAR_MAP (-255) _ _ _ (-9)
    hAneg hB hCneg (py_int_intCast (-9))
  refine ⟨by rw [h510]; decide, by rw [hneg]; decide,
    by rw [hneg]; decide, by rw [h510]; decide⟩


/-- When no character position of the text is in bounds, the `draw_text`
loop never writes. -/
theorem draw_text_from_noop (x y color : ℤ) :
    ∀ (cs : List Char) (i : ℕ) (r : AsciiRenderer),
      (∀ k : ℕ, k < cs.length →
        ¬(0 ≤ x + ((i + k : ℕ) : ℤ) ∧ x + ((i + k : ℕ) : ℤ) < (r.width : ℤ) ∧
          0 ≤ y ∧ y < (r.height : ℤ))) →
      draw_text_from x y color i cs r = r := by
  intro cs
  induction cs with
  | nil => intro i r _; rfl
  | cons c cs ih =>
    intro i r h
    have h0 := h 0 (Nat.succ_pos _)
    have hstep : (if 0 ≤ x + (i : ℤ) ∧ x + (i : ℤ) < (r.width : ℤ) ∧ 0 ≤ y ∧ y < (r.height : ℤ)
        then write_cell r (x + (i : ℤ)).toNat y.toNat c color else r) = r := by
      rw [if_neg]
      simpa using h0
    rw [draw_text_from, hstep]
    exact ih (i + 1) r (by
      intro k hk
      have := h (k + 1) (by simp only [List.length_cons]; omega)
      have harith : ((i + (k + 1) : ℕ) : ℤ) = ((i + 1 + k : ℕ) : ℤ) := by push_cast; ring
      rwa [harith] at this)

/-- Claim C7: for coordinates outside `[0,width) × [0,height)`, `draw_char`
is a silent no-op (the renderer state is unchanged and no error is raised);
likewise `draw_text` leaves the state unchanged when every written position
is out of bounds. -/
theorem C7_out_of_bounds_noop (r : AsciiRenderer) (x y : ℤ) (c : Char) (color : ℤ)
    (text : String) :
    (¬(0 ≤ x ∧ x < (r.width : ℤ) ∧ 0 ≤ y ∧ y < (r.height : ℤ)) →
      draw_char r x y c color = r) ∧
    ((∀ i : ℕ, i < text.length →
        ¬(0 ≤ x + (i : ℤ) ∧ x + (i : ℤ) < (r.width : ℤ) ∧ 0 ≤ y ∧ y < (r.height : ℤ))) →
      draw_text r x y text color = r) := by
  constructor
  · intro h
    rw [draw_char, if_neg h]
  · intro h
    rw [draw_text]
    exact draw_text_from_noop x y color text.data 0 r (by
      intro k hk
      have hk' : k < text.length := hk
      simpa using h k hk')

/-- Witness for C7 on a concrete 2×2 renderer with out-of-range writes. -/
theorem C7_out_of_bounds_noop_witness :
    draw_char (AsciiRenderer.init 2 2 none) 99 0 'A' 5 = AsciiRenderer.init 2 2 none ∧
    draw_text (AsciiRenderer.init 2 2 none) 99 0 "AB" 5 = AsciiRenderer.init 2 2 none :=
  ⟨(C7_out_of_bounds_noop (AsciiRenderer.init 2 2 none) 99 0 'A' 5 "AB").1 (by decide),
   (C7_out_of_bounds_noop (AsciiRenderer.init 2 2 none) 99 0 'A' 5 "AB").2 (by decide)⟩

theorem write_cell_buffer (r : AsciiRenderer) (i j : ℕ) (c : Char) (color : ℤ) :
    (write_cell r i j c color).buffer
      = r.buffer.set j ((r.buffer.getD j []).set i (c, color)) := rfl

theorem write_cell_width (r : AsciiRenderer) (i j : ℕ) (c : Char) (color : ℤ) :
    (write_cell r i j c color).width = r.width := rfl

theorem write_cell_height (r : AsciiRenderer) (i j : ℕ) (c : Char) (color : ℤ) :
    (write_cell r i j c color).height = r.height := rfl

theorem write_cell_wf (r : AsciiRenderer) (hwf : Wf r) (i j : ℕ)
    (hj : j < r.buffer.length) (c : Char) (color : ℤ) :
    Wf (write_cell r i j c color) := by
  obtain ⟨hlen, hrow⟩ := hwf
  constructor
  · rw [write_cell_buffer, List.length_set]
    exact hlen
  · intro row hmem
    rw [write_cell_buffer] at hmem
    rcases List.mem_or_eq_of_mem_set hmem with h | h
    · exact hrow row h
    · subst h
      rw [List.length_set, List.getD_eq_get?, List.get?_eq_get hj]
      exact hrow _ (List.get_mem _ _ _)

theorem cellAt_write_cell_eq (r : AsciiRenderer) (hwf : Wf r) (i j : ℕ)
    (hi : i < r.width) (hj : j < r.height) (c : Char) (color : ℤ) :
    cellAt (write_cell r i j c color) (i : ℤ) (j : ℤ) = some (c, color) := by
  have hj' : j < r.buffer.length := by rw [hwf.1]; exact hj
  have hrowlen : (r.buffer.getD j []).length = r.width := by
    rw [List.getD_eq_get?, List.get?_eq_get hj']
    exact hwf.2 _ (List.get_mem _ _ _)
  rw [cellAt, if_pos ⟨Int.natCast_nonneg i, Int.natCast_nonneg j⟩]
  simp only [Int.toNat_natCast, write_cell_buffer]
  rw [List.get?_set_eq_of_lt _ hj']
  simp only [Option.some_bind]
  rw [List.get?_set_eq_of_lt _ (by rw [hrowlen]; exact hi)]

theorem cellAt_write_cell_ne (r : AsciiRenderer) (hwf : Wf r) (i j : ℕ)
    (hj : j < r.height) (c : Char) (color : ℤ) (a b : ℤ)
    (hne : a ≠ (i : ℤ) ∨ b ≠ (j : ℤ)) :
    cellAt (write_cell r i j c color) a b = cellAt r a b := by
  by_cases hab : 0 ≤ a ∧ 0 ≤ b
  · obtain ⟨ha, hb⟩ := hab
    rw [cellAt, if_pos ⟨ha, hb⟩, cellAt, if_pos ⟨ha, hb⟩]
    have hj' : j < r.buffer.length := by rw [hwf.1]; exact hj
    by_cases hbj : b.toNat = j
    · have hai : a.toNat ≠ i := by
        rcases hne with h | h
        · omega
        · exfalso
          exact h (by omega)
      rw [write_cell_buffer, hbj, List.get?_set_eq_of_lt _ hj', List.get?_eq_get hj',
        List.getD_eq_get?, List.get?_eq_get hj']
      simp only [Option.some_bind, Option.getD_some]
      exact List.get?_set_ne _ _ (fun h => hai h.symm)
    · rw [write_cell_buffer, List.get?_set_ne _ _ (fun h => hbj h.symm)]
  · rw [cellAt, if_neg hab, cellAt, if_neg hab]

theorem draw_text_from_width (x y color : ℤ) :
    ∀ (cs : List Char) (i : ℕ) (r : AsciiRenderer),
      (draw_text_from x y color i cs r).width = r.width := by
  intro cs
  induction cs with
  | nil => intro i r; rfl
  | cons c cs ih =>
    intro i r
    rw [draw_text_from, ih]
    split
    · rfl
    · rfl

theorem draw_text_from_height (x y color : ℤ) :
    ∀ (cs : List Char) (i : ℕ) (r : AsciiRenderer),
      (draw_text_from x y color i cs r).height = r.height := by
  intro cs
  induction cs with
  | nil => intro i r; rfl
  | cons c cs ih =>
    intro i r
    rw [draw_text_from, ih]
    split
    · rfl
    · rfl

theorem draw_text_from_wf (x y color : ℤ) :
    ∀ (cs : List Char) (i : ℕ) (r : AsciiRenderer), Wf r →
      Wf (draw_text_from x y color i cs r) := by
  intro cs
  induction cs with
  | nil => intro i r h; exact h
  | cons c cs ih =>
    intro i r hwf
    rw [draw_text_from]
    apply ih
    split
    · rename_i hgd
      exact write_cell_wf r hwf _ _ (by rw [hwf.1]; omega) c color
    · exact hwf

/-- Positions whose column differs from every written column are untouched
by the `draw_text` loop. -/
theorem draw_text_from_cellAt_untouched (x y color : ℤ) :
    ∀ (cs : List Char) (i : ℕ) (r : AsciiRenderer), Wf r →
      ∀ (a b : ℤ), (∀ k : ℕ, k < cs.length → a ≠ x + ((i + k : ℕ) : ℤ)) →
      cellAt (draw_text_from x y color i cs r) a b = cellAt r a b := by
  intro cs
  induction cs with
  | nil => intro i r _ a b _; rfl
  | cons c cs ih =>
    intro i r hwf a b h
    rw [draw_text_from]
    have h0 : a ≠ x + (i : ℤ) := by
      have := h 0 (Nat.succ_pos _)
      simpa using this
    have hshift : ∀ k : ℕ, k < cs.length → a ≠ x + ((i + 1 + k : ℕ) : ℤ) := by
      intro k hk
      have := h (k + 1) (by simp only [List.length_cons]; omega)
      have harith : ((i + (k + 1) : ℕ) : ℤ) = ((i + 1 + k : ℕ) : ℤ) := by push_cast; ring
      rwa [harith] at this
    split
    · rename_i hgd
      rw [ih (i + 1) _ (write_cell_wf r hwf _ _ (by rw [hwf.1]; omega) c color) a b hshift]
      apply cellAt_write_cell_ne r hwf _ _ (by omega) c color a b
      left
      omega
    · exact ih (i + 1) r hwf a b hshift

/-- Character `k` of the remaining text lands at column `x + (i + k)`:
written when that column is in range, otherwise that cell is untouched. -/
theorem draw_text_from_cellAt_hit (x y color : ℤ) :
    ∀ (cs : List Char) (i : ℕ) (r : AsciiRenderer), Wf r →
      0 ≤ y → y < (r.height : ℤ) →
      ∀ (k : ℕ) (hk : k < cs.length),
      cellAt (draw_text_from x y color i cs r) (x + ((i + k : ℕ) : ℤ)) y =
        if 0 ≤ x + ((i + k : ℕ) : ℤ) ∧ x + ((i + k : ℕ) : ℤ) < (r.width : ℤ)
        then some (cs.get ⟨k, hk⟩, color)
        else cellAt r (x + ((i + k : ℕ) : ℤ)) y := by
  intro cs
  induction cs with
  | nil =>
    intro i r _ _ _ k hk
    exact absurd hk (Nat.not_lt_zero k)
  | cons c cs ih =>
    intro i r hwf hy0 hyh k hk
    rw [draw_text_from]
    rcases k with _ | k'
    · simp only [Nat.add_zero, List.get]
      have huntouched : ∀ k : ℕ, k < cs.length →
          x + (i : ℤ) ≠ x + ((i + 1 + k : ℕ) : ℤ) := by
        intro k hk'
        push_cast
        omega
      split
      · rename_i hgd
        have hwf1 := write_cell_wf r hwf (x + (i : ℤ)).toNat y.toNat
          (by rw [hwf.1]; omega) c color
        rw [draw_text_from_cellAt_untouched x y color cs (i + 1) _ hwf1 _ y huntouched]
        rw [if_pos ⟨hgd.1, hgd.2.1⟩]
        have hcoords : cellAt (write_cell r (x + (i : ℤ)).toNat y.toNat c color)
            (((x + (i : ℤ)).toNat : ℤ)) ((y.toNat : ℤ)) = some (c, color) :=
          cellAt_write_cell_eq r hwf _ _ (by omega) (by omega) c color
        rw [show (((x + (i : ℤ)).toNat : ℤ)) = x + (i : ℤ) by omega,
          show ((y.toNat : ℤ)) = y by omega] at hcoords
        exact hcoords
      · rename_i hgd
        rw [draw_text_from_cellAt_untouched x y color cs (i + 1) r hwf _ y huntouched]
        rw [if_neg (by
          intro hcontra
          exact hgd ⟨hcontra.1, hcontra.2, hy0, hyh⟩)]
    · have harith : ((i + (k' + 1) : ℕ) : ℤ) = ((i + 1 + k' : ℕ) : ℤ) := by push_cast; ring
      rw [harith]
      have hk' : k' < cs.length := by
        simp only [List.length_cons] at hk
        omega
      split
      · rename_i hgd
        have hwf1 := write_cell_wf r hwf (x + (i : ℤ)).toNat y.toNat
          (by rw [hwf.1]; omega) c color
        have := ih (i + 1) _ hwf1 hy0
          (by rw [write_cell_height]; exact hyh) k' hk'
        rw [this]
        rw [write_cell_width]
        split
        · rfl
        · apply cellAt_write_cell_ne r hwf _ _ (by omega) c color
          left
          push_cast
          omega
      · have := ih (i + 1) r hwf hy0 hyh k' hk'
        rw [this]
        rfl

/-- Claim C8: for an in-bounds row `y`, `draw_text` writes character `i` of
the text at `(x+i, y)` exactly when `0 ≤ x+i < width` and silently skips
every other character (positions differing from all `x+i` are untouched):
partially off-screen text is clipped, not rejected.  In particular, on an
8-wide grid, `draw_text` at `x = 6` with `"HELLO"` writes only `'H'` and
`'E'` at columns 6 and 7 and drops the rest without error. -/
theorem C8_writeText_clips (r : AsciiRenderer) (x y : ℤ) (text : String) (color : ℤ)
    (hwf : Wf r) (hy0 : 0 ≤ y) (hyh : y < (r.height : ℤ)) :
    (∀ i : ℕ, i < text.length →
      cellAt (draw_text r x y text color) (x + (i : ℤ)) y =
        if 0 ≤ x + (i : ℤ) ∧ x + (i : ℤ) < (r.width : ℤ)
        then (text.data.get? i).map (fun ch => (ch, color))
        else cellAt r (x + (i : ℤ)) y) ∧
    (∀ a : ℤ, (∀ i : ℕ, i < text.length → a ≠ x + (i : ℤ)) →
      cellAt (draw_text r x y text color) a y = cellAt r a y) ∧
    draw_text (AsciiRenderer.init 8 1 none) 6 0 "HELLO" (-1)
      = { AsciiRenderer.init 8 1 none with
          buffer := [[(' ', -1), (' ', -1), (' ', -1), (' ', -1), (' ', -1), (' ', -1),
                      ('H', -1), ('E', -1)]] } := by
  refine ⟨?_, ?_, ?_⟩
  · intro i hi
    have hi' : i < text.data.length := hi
    have h := draw_text_from_cellAt_hit x y color text.data 0 r hwf hy0 hyh i hi'
    simp only [Nat.zero_add] at h
    rw [draw_text, h]
    split
    · rw [List.get?_eq_get hi']
      rfl
    · rfl
  · intro a ha
    rw [draw_text]
    apply draw_text_from_cellAt_untouched x y color text.data 0 r hwf a y
    intro k hk
    simp only [Nat.zero_add]
    exact ha k hk
  · decide

/-- Witness for C8 on the concrete 8×1 clipping scenario. -/
theorem C8_writeText_clips_witness :
    draw_text (AsciiRenderer.init 8 1 none) 6 0 "HELLO" (-1)
      = { AsciiRenderer.init 8 1 none with
          buffer := [[(' ', -1), (' ', -1), (' ', -1), (' ', -1), (' ', -1), (' ', -1),
                      ('H', -1), ('E', -1)]] } :=
  (C8_writeText_clips (AsciiRenderer.init 8 1 none) 6 0 "HELLO" (-1)
    (by decide) (by decide) (by decide)).2.2

theorem load_cols_ne_valueError (cm : List Char) (i : ℕ) (row : List FrameCell) :
    ∀ (fuel j : ℕ) (r : AsciiRenderer),
      (load_cols cm i row fuel j r).2 ≠ some PyErr.valueError := by
  intro fuel
  induction fuel with
  | zero => intro j r; simp [load_cols]
  | succ fuel ih =>
    intro j r
    rw [load_cols]
    split
    · simp
    · split
      · simp
      · exact ih (j + 1) _

theorem load_rows_ne_valueError (cm : List Char) (fd : List (List FrameCell)) (w : ℕ) :
    ∀ (fuel i : ℕ) (r : AsciiRenderer),
      (load_rows cm fd w fuel i r).2 ≠ some PyErr.valueError := by
  intro fuel
  induction fuel with
  | zero => intro i r; simp [load_rows]
  | succ fuel ih =>
    intro i r
    rw [load_rows]
    split
    · simp
    · rename_i row hfd
      split
      · rename_i r' hcols
        exact ih (i + 1) r'
      · rename_i r' e hcols
        have hne := load_cols_ne_valueError cm i row w 0 r
        rw [hcols] at hne
        simpa using hne

/-- Claim C1 (amended): `load_frame` raises the dimension-mismatch
`ValueError` precisely from its up-front check, which compares the row
count with `height` and the *first* row's column count with `width`; on
such a failure the state is returned unchanged (no partial mutation).
When the row count and the first row's width match, no dimension-mismatch
error is raised — mismatched later rows are not detected by the check. -/
theorem C1_load_frame_dimension_check (r : AsciiRenderer) (fd : List (List FrameCell)) :
    (fd.length ≠ r.height → load_frame r fd = (r, some PyErr.valueError)) ∧
    (fd.length = r.height → 0 < r.height → (fd.headD []).length ≠ r.width →
      load_frame r fd = (r, some PyErr.valueError)) ∧
    (fd.length = r.height → (∀ row ∈ fd, row.length = r.width) →
      (load_frame r fd).2 ≠ some PyErr.valueError) := by
  refine ⟨?_, ?_, ?_⟩
  · intro h
    rw [load_frame, if_pos h]
  · intro h1 h2 h3
    rcases fd with _ | ⟨row0, rest⟩
    · exfalso
      simp only [List.length_nil] at h1
      omega
    · rw [load_frame, if_neg (by simp [h1])]
      simp only [List.head?_cons]
      rw [if_pos (by simpa using h3)]
  · intro h1 h2
    rcases fd with _ | ⟨row0, rest⟩
    · rw [load_frame, if_neg (by simp [h1])]
      simp
    · rw [load_frame, if_neg (by simp [h1])]
      simp only [List.head?_cons]
      rw [if_neg (by simp [h2 row0 (List.mem_cons_self _ _)])]
      exact load_rows_ne_valueError _ _ _ _ _ _

/-- Claim C1 counterexample: a frame source whose *second* row has the
wrong column count (3 instead of 2 on a 2×2 grid) is not rejected: the
call returns without any error, silently ignoring the extra cell, whereas
the claim requires a dimension-mismatch failure. -/
theorem C1_counterexample :
    (load_frame (AsciiRenderer.init 2 2 none)
        [[FrameCell.scalar 0, FrameCell.scalar 0],
         [FrameCell.scalar 0, FrameCell.scalar 0, FrameCell.scalar 0]]).2 = none := by
  simp [load_frame, load_rows, load_cols, AsciiRenderer.init, map_intensity_zero,
    frame_cell_intensity, frame_cell_color, write_cell, DEFAULT_CHAR_MAP]

/-- Witness for the amended C1: the check fires on a wrong row count and a
wrong first-row width, and a fully matching 1×1 source is not rejected. -/
theorem C1_load_frame_dimension_check_witness :
    load_frame (AsciiRenderer.init 2 2 none) [[FrameCell.scalar 0, FrameCell.scalar 0]]
      = (AsciiRenderer.init 2 2 none, some PyErr.valueError) ∧
    load_frame (AsciiRenderer.init 2 2 none)
        [[FrameCell.scalar 0], [FrameCell.scalar 0]]
      = (AsciiRenderer.init 2 2 none, some PyErr.valueError) ∧
    (load_frame (AsciiRenderer.init 1 1 none) [[FrameCell.scalar 0]]).2
      ≠ some PyErr.valueError :=
  ⟨(C1_load_frame_dimension_check (AsciiRenderer.init 2 2 none)
      [[FrameCell.scalar 0, FrameCell.scalar 0]]).1 (by decide),
   (C1_load_frame_dimension_check (AsciiRenderer.init 2 2 none)
      [[FrameCell.scalar 0], [FrameCell.scalar 0]]).2.1 (by decide) (by decide) (by decide),
   (C1_load_frame_dimension_check (AsciiRenderer.init 1 1 none)
      [[FrameCell.scalar 0]]).2.2 (by decide) (by decide)⟩

theorem load_cols_preserve (cm : List Char) (i : ℕ) (row : List FrameCell) :
    ∀ (fuel j : ℕ) (r : AsciiRenderer),
      (load_cols cm i row fuel j r).1.width = r.width ∧
      (load_cols cm i row fuel j r).1.height = r.height ∧
      (Wf r → i < r.height → Wf (load_cols cm i row fuel j r).1) := by
  intro fuel
  induction fuel with
  | zero => intro j r; exact ⟨rfl, rfl, fun h _ => h⟩
  | succ fuel ih =>
    intro j r
    rw [load_cols]
    split
    · exact ⟨rfl, rfl, fun h _ => h⟩
    · split
      · exact ⟨rfl, rfl, fun h _ => h⟩
      · refine ⟨(ih (j + 1) _).1, (ih (j + 1) _).2.1, ?_⟩
        intro hwf hi
        exact (ih (j + 1) _).2.2
          (write_cell_wf r hwf _ i (by rw [hwf.1]; exact hi) _ _) hi

theorem load_cols_untouched (cm : List Char) (i : ℕ) (row : List FrameCell) :
    ∀ (fuel j : ℕ) (r : AsciiRenderer), Wf r → i < r.height →
      ∀ (a b : ℤ), (b ≠ (i : ℤ) ∨ a < (j : ℤ)) →
      cellAt (load_cols cm i row fuel j r).1 a b = cellAt r a b := by
  intro fuel
  induction fuel with
  | zero => intro j r _ _ a b _; rfl
  | succ fuel ih =>
    intro j r hwf hi a b hab
    rw [load_cols]
    split
    · rfl
    · split
      · rfl
      · rename_i s1 fc hrow s2 ch hmap
        have hwf1 := write_cell_wf r hwf j i (by rw [hwf.1]; exact hi) ch
          (frame_cell_color fc)
        rw [ih (j + 1) _ hwf1 hi a b (by
          rcases hab with h | h
          · exact Or.inl h
          · right
            push_cast
            omega)]
        apply cellAt_write_cell_ne r hwf j i hi ch (frame_cell_color fc) a b
        rcases hab with h | h
        · exact Or.inr h
        · left
          omega

theorem load_cols_spec (cm : List Char) (i : ℕ) (row : List FrameCell) :
    ∀ (fuel j : ℕ) (r : AsciiRenderer), Wf r → i < r.height →
      (∀ k : ℕ, j ≤ k → k < j + fuel → ∃ fc ch, row.get? k = some fc ∧
        map_intensity_to_char cm (frame_cell_intensity fc) = some ch) →
      (load_cols cm i row fuel j r).2 = none ∧
      (∀ k : ℕ, j ≤ k → k < j + fuel → k < r.width →
        ∀ fc ch, row.get? k = some fc →
        map_intensity_to_char cm (frame_cell_intensity fc) = some ch →
        cellAt (load_cols cm i row fuel j r).1 (k : ℤ) (i : ℤ)
          = some (ch, frame_cell_color fc)) := by
  intro fuel
  induction fuel with
  | zero =>
    intro j r _ _ _
    exact ⟨rfl, by intro k hk1 hk2; omega⟩
  | succ fuel ih =>
    intro j r hwf hi h
    rw [load_cols]
    split
    · rename_i hnone
      obtain ⟨fc, ch, hrow, hmap⟩ := h j le_rfl (by omega)
      rw [hrow] at hnone
      exact Option.noConfusion hnone
    · rename_i fc' heq
      split
      · rename_i hnone
        obtain ⟨fc, ch, hrow, hmap⟩ := h j le_rfl (by omega)
        rw [heq] at hrow
        obtain rfl : fc' = fc := Option.some.inj hrow
        rw [hmap] at hnone
        exact Option.noConfusion hnone
      · rename_i ch' hmap'
        have hwf1 := write_cell_wf r hwf j i (by rw [hwf.1]; exact hi) ch'
          (frame_cell_color fc')
        have hih := ih (j + 1) _ hwf1 (by rw [write_cell_height]; exact hi)
          (fun k hk1 hk2 => h k (by omega) (by omega))
        refine ⟨hih.1, ?_⟩
        intro k hk1 hk2 hkw fc'' ch'' hrow'' hmap''
        rcases Nat.eq_or_lt_of_le hk1 with hkj | hkj
        · subst hkj
          rw [heq] at hrow''
          obtain rfl : fc' = fc'' := Option.some.inj hrow''
          rw [hmap'] at hmap''
          obtain rfl : ch' = ch'' := Option.some.inj hmap''
          rw [load_cols_untouched cm i row fuel (j + 1) _ hwf1
            (by rw [write_cell_height]; exact hi) (j : ℤ) (i : ℤ)
            (Or.inr (by push_cast; omega))]
          exact cellAt_write_cell_eq r hwf j i hkw hi ch' (frame_cell_color fc')
        · exact hih.2 k (by omega) (by omega) (by rw [write_cell_width]; exact hkw)
            fc'' ch'' hrow'' hmap''

theorem load_rows_spec (cm : List Char) (fd : List (List FrameCell)) (w : ℕ) :
    ∀ (fuel i : ℕ) (r : AsciiRenderer), Wf r → w = r.width → i + fuel ≤ r.height →
      (∀ i' : ℕ, i ≤ i' → i' < i + fuel → ∃ row, fd.get? i' = some row ∧
        (∀ k : ℕ, k < w → ∃ fc ch, row.get? k = some fc ∧
          map_intensity_to_char cm (frame_cell_intensity fc) = some ch)) →
      (load_rows cm fd w fuel i r).2 = none ∧
      (∀ i' : ℕ, i ≤ i' → i' < i + fuel → ∀ row, fd.get? i' = some row →
        ∀ k : ℕ, k < w → ∀ fc ch, row.get? k = some fc →
          map_intensity_to_char cm (frame_cell_intensity fc) = some ch →
          cellAt (load_rows cm fd w fuel i r).1 (k : ℤ) (i' : ℤ)
            = some (ch, frame_cell_color fc)) ∧
      (∀ (a b : ℤ), b < (i : ℤ) → cellAt (load_rows cm fd w fuel i r).1 a b = cellAt r a b) ∧
      Wf (load_rows cm fd w fuel i r).1 ∧
      (load_rows cm fd w fuel i r).1.width = r.width ∧
      (load_rows cm fd w fuel i r).1.height = r.height := by
  intro fuel
  induction fuel with
  | zero =>
    intro i r hwf _ _ _
    exact ⟨rfl, by intro i' h1 h2; omega, by intro a b _; rfl, hwf, rfl, rfl⟩
  | succ fuel ih =>
    intro i r hwf hww hle h
    obtain ⟨row_i, hfd, hcells⟩ := h i le_rfl (by omega)
    have hi : i < r.height := by omega
    rw [load_rows]
    split
    · rename_i hnone
      rw [hfd] at hnone
      exact Option.noConfusion hnone
    · rename_i row' heq
      rw [heq] at hfd
      obtain rfl : row' = row_i := Option.some.inj hfd
      split
      · rename_i r₁ hcols
        have hpre := load_cols_preserve cm i row' w 0 r
        rw [hcols] at hpre
        have hwf1 : Wf r₁ := hpre.2.2 hwf hi
        have hcspec := load_cols_spec cm i row' w 0 r hwf hi
          (fun k _ hk2 => hcells k (by omega))
        rw [hcols] at hcspec
        have hww1 : w = r₁.width := by rw [hpre.1]; exact hww
        have hih := ih (i + 1) r₁ hwf1 hww1 (by rw [hpre.2.1]; omega)
          (fun i' h1 h2 => h i' (by omega) (by omega))
        refine ⟨hih.1, ?_, ?_, hih.2.2.2.1,
          by rw [hih.2.2.2.2.1, hpre.1], by rw [hih.2.2.2.2.2, hpre.2.1]⟩
        · intro i' h1 h2 row'' hfd'' k hk fc ch hrowk hmapk
          rcases Nat.eq_or_lt_of_le h1 with hEq | hlt
          · subst hEq
            rw [heq] at hfd''
            obtain rfl : row' = row'' := Option.some.inj hfd''
            rw [hih.2.2.1 (k : ℤ) (i : ℤ) (by push_cast; omega)]
            exact hcspec.2 k (by omega) (by omega) (by omega) fc ch hrowk hmapk
          · exact hih.2.1 i' (by omega) (by omega) row'' hfd'' k hk fc ch hrowk hmapk
        · intro a b hb
          rw [hih.2.2.1 a b (by push_cast; omega)]
          have hu := load_cols_untouched cm i row' w 0 r hwf hi a b (Or.inl (by omega))
          rw [hcols] at hu
          exact hu
      · rename_i r₁ e hcols
        have hcspec := (load_cols_spec cm i row' w 0 r hwf hi
          (fun k _ hk2 => hcells k (by omega))).1
        rw [hcols] at hcspec
        exact Option.noConfusion hcspec

/-- Claim C10: for a frame source of matching dimensions (on a grid with at
least one row), `load_frame` accepts both cell formats — a non-2-tuple cell
is a bare intensity whose color defaults to the sentinel `-1`, a 2-tuple
`(intensity, color)` keeps its color — and succeeds without error, writing
`(mapIntensity(intensity), color)` into each buffer cell. -/
theorem C10_load_frame_cell_formats (r : AsciiRenderer) (fd : List (List FrameCell))
    (hwf : Wf r) (hpos : 0 < r.height) (hlen : fd.length = r.height)
    (hrows : ∀ row ∈ fd, row.length = r.width)
    (hmap : ∀ row ∈ fd, ∀ fc ∈ row,
      (map_intensity_to_char r.char_map (frame_cell_intensity fc)).isSome = true) :
    (load_frame r fd).2 = none ∧
    (∀ (i k : ℕ) (row : List FrameCell) (fc : FrameCell) (ch : Char),
      fd.get? i = some row → row.get? k = some fc → k < r.width →
      map_intensity_to_char r.char_map (frame_cell_intensity fc) = some ch →
      cellAt (load_frame r fd).1 (k : ℤ) (i : ℤ) = some (ch, frame_cell_color fc)) ∧
    (∀ v : ℤ, frame_cell_color (FrameCell.scalar v) = -1) ∧
    (∀ v c : ℤ, frame_cell_color (FrameCell.pair v c) = c) := by
  have hspec := load_rows_spec r.char_map fd r.width r.height 0 r hwf rfl (by omega)
    (by
      intro i' _ h2
      have hi' : i' < fd.length := by omega
      refine ⟨fd.get ⟨i', hi'⟩, List.get?_eq_get hi', ?_⟩
      intro k hk
      have hmem : fd.get ⟨i', hi'⟩ ∈ fd := List.get_mem _ _ _
      have hklen : k < (fd.get ⟨i', hi'⟩).length := by
        rw [hrows _ hmem]
        exact hk
      have hmem2 := List.get_mem (fd.get ⟨i', hi'⟩) k hklen
      obtain ⟨ch, hch⟩ := Option.isSome_iff_exists.mp (hmap _ hmem _ hmem2)
      exact ⟨(fd.get ⟨i', hi'⟩).get ⟨k, hklen⟩, ch, List.get?_eq_get hklen, hch⟩)
  have hframe : load_frame r fd = load_rows r.char_map fd r.width r.height 0 r := by
    rcases fd with _ | ⟨row0, rest⟩
    · exfalso
      simp only [List.length_nil] at hlen
      omega
    · rw [load_frame, if_neg (by simp [hlen])]
      simp only [List.head?_cons]
      rw [if_neg (by simp [hrows row0 (List.mem_cons_self _ _)])]
  refine ⟨?_, ?_, fun v => rfl, fun v c => rfl⟩
  · rw [hframe]
    exact hspec.1
  · intro i k row fc ch hfdi hrowk hkw hmapk
    rw [hframe]
    have hi : i < fd.length := by
      by_contra hcon
      rw [List.get?_eq_none.mpr (by omega)] at hfdi
      exact Option.noConfusion hfdi
    exact hspec.2.1 i (Nat.zero_le i) (by omega) row hfdi k hkw fc ch hrowk hmapk

/-- Witness for C10: a 2×1 frame mixing a bare-intensity cell and an
`(intensity, color)` pair loads without error, and the pair's color `7`
is kept in the written buffer cell. -/
theorem C10_load_frame_cell_formats_witness :
    (load_frame (AsciiRenderer.init 2 1 none)
        [[FrameCell.scalar 0, FrameCell.pair 0 7]]).2 = none ∧
    cellAt (load_frame (AsciiRenderer.init 2 1 none)
        [[FrameCell.scalar 0, FrameCell.pair 0 7]]).1 (1 : ℤ) (0 : ℤ)
      = some (' ', 7) := by
  have hmap0 : map_intensity_to_char (AsciiRenderer.init 2 1 none).char_map 0
      = some ' ' := by
    rw [map_intensity_zero]
    rfl
  have h := C10_load_frame_cell_formats (AsciiRenderer.init 2 1 none)
    [[FrameCell.scalar 0, FrameCell.pair 0 7]] (by decide) (by decide) (by decide)
    (by decide)
    (by
      intro row hrow fc hfc
      rcases List.mem_singleton.mp hrow with rfl
      rcases List.mem_cons.mp hfc with rfl | hfc2
      · rw [show frame_cell_intensity (FrameCell.scalar 0) = 0 from rfl, hmap0]
        rfl
      · rcases List.mem_singleton.mp hfc2 with rfl
        rw [show frame_cell_intensity (FrameCell.pair 0 7) = 0 from rfl, hmap0]
        rfl)
  refine ⟨h.1, ?_⟩
  have hcell := h.2.1 0 1 [FrameCell.scalar 0, FrameCell.pair 0 7] (FrameCell.pair 0 7) ' '
    (by decide) (by decide) (by decide)
    (by rw [show frame_cell_intensity (FrameCell.pair 0 7) = 0 from rfl, hmap0])
  simpa using hcell

theorem render_cell_eq_spec (cell : Cell) : render_cell cell = render_cell_spec cell := by
  by_cases h : cell.2 = -1
  · simp [render_cell, render_cell_spec, h]
  · simp [render_cell, render_cell_spec, h]

theorem render_cols_complete (row : List Cell) :
    ∀ (fuel j : ℕ) (acc : String), j + fuel = row.length →
      render_cols row fuel j acc
        = some (((row.drop j).map render_cell).foldl (fun r s => r ++ s) acc) := by
  intro fuel
  induction fuel with
  | zero =>
    intro j acc hj
    rw [render_cols, List.drop_eq_nil_of_le (by omega)]
    rfl
  | succ fuel ih =>
    intro j acc hj
    have hjlt : j < row.length := by omega
    rw [render_cols, List.get?_eq_get hjlt]
    show render_cols row fuel (j + 1) (acc ++ render_cell (row.get ⟨j, hjlt⟩))
      = some (((row.drop j).map render_cell).foldl (fun r s => r ++ s) acc)
    rw [ih (j + 1) _ (by omega), List.drop_eq_getElem_cons hjlt]
    rfl

theorem render_rows_complete (buf : List (List Cell)) (w : ℕ)
    (hw : ∀ row ∈ buf, row.length = w) :
    ∀ (fuel i : ℕ) (acc : List String), i + fuel = buf.length →
      render_rows buf w fuel i acc
        = some (acc ++ (buf.drop i).map (fun row => String.join (row.map render_cell))) := by
  intro fuel
  induction fuel with
  | zero =>
    intro i acc hi
    rw [render_rows, List.drop_eq_nil_of_le (by omega)]
    simp
  | succ fuel ih =>
    intro i acc hi
    have hilt : i < buf.length := by omega
    rw [render_rows, List.get?_eq_get hilt]
    show (match render_cols (buf.get ⟨i, hilt⟩) w 0 "" with
      | none => none
      | some line => render_rows buf w fuel (i + 1) (acc ++ [line]))
      = some (acc ++ (buf.drop i).map (fun row => String.join (row.map render_cell)))
    rw [render_cols_complete (buf.get ⟨i, hilt⟩) w 0 ""
      (by rw [hw _ (List.get_mem _ _ _)]; omega)]
    show render_rows buf w fuel (i + 1)
        (acc ++ [((buf.get ⟨i, hilt⟩).map render_cell).foldl (fun r s => r ++ s) ""])
      = some (acc ++ (buf.drop i).map (fun row => String.join (row.map render_cell)))
    rw [ih (i + 1) _ (by omega), List.drop_eq_getElem_cons hilt]
    simp only [List.map_cons, List.append_assoc]
    rfl

/-- Claim C4: for every well-formed buffer, `render` performs exactly two
output operations: first the home+clear escape `ESC[H ESC[J`, then the
whole frame in one write — rows top-to-bottom joined with newlines, each
row the left-to-right concatenation of its cells, where a cell with the
no-color sentinel contributes only its glyph and any other cell
contributes `ESC[38;5;{index}m`, the glyph, and `ESC[0m`. -/
theorem C4_render_format (r : AsciiRenderer) (hwf : Wf r) :
    render r = some ["\x1b[H\x1b[J",
      String.intercalate "\n"
        (r.buffer.map (fun row => String.join (row.map render_cell_spec))) ++ "\n"] := by
  have h := render_rows_complete r.buffer r.width hwf.2 r.height 0 []
    (by rw [hwf.1]; omega)
  rw [render, h]
  show some ["\x1b[H\x1b[J", String.intercalate "\n"
      ([] ++ (r.buffer.drop 0).map (fun row => String.join (row.map render_cell))) ++ "\n"]
    = _
  rw [show render_cell = render_cell_spec from funext render_cell_eq_spec]
  simp

/-- Witness for C4 on a concrete 2×1 buffer with one colored cell. -/
theorem C4_render_format_witness :
    render { width := 2, height := 1, char_map := DEFAULT_CHAR_MAP,
             buffer := [[('A', -1), ('B', 3)]] }
      = some ["\x1b[H\x1b[J",
        String.intercalate "\n"
          (({ width := 2, height := 1, char_map := DEFAULT_CHAR_MAP,
              buffer := [[('A', -1), ('B', 3)]] } : AsciiRenderer).buffer.map
            (fun row => String.join (row.map render_cell_spec))) ++ "\n"] :=
  C4_render_format
    { width := 2, height := 1, char_map := DEFAULT_CHAR_MAP,
      buffer := [[('A', -1), ('B', 3)]] } (by decide)

theorem run_step_some (has_update : Bool) (D fx : ℚ) (s : RunState) (t dt : ℚ)
    (h : (run_step has_update D fx s t).2 = some dt) :
    dt = fx ∧ has_update = true ∧ 0 < D ∧ D ≤ t - s.last_update_time := by
  rw [run_step] at h
  split at h
  · rename_i hcond
    exact ⟨(Option.some.inj h).symm, hcond⟩
  · exact Option.noConfusion h

theorem run_step_fire (D fx : ℚ) (s : RunState) (t : ℚ) (hD : 0 < D)
    (hcond : D ≤ t - s.last_update_time) :
    run_step true D fx s t = ({ last_time := t, last_update_time := t }, some fx) := by
  rw [run_step, if_pos ⟨rfl, hD, hcond⟩]

theorem run_step_no_fire (D fx : ℚ) (s : RunState) (t : ℚ)
    (hcond : ¬ D ≤ t - s.last_update_time) :
    run_step true D fx s t
      = ({ last_time := t, last_update_time := s.last_update_time }, none) := by
  rw [run_step, if_neg (fun hc => hcond hc.2.2)]

theorem run_trace_all_fixed (has_update : Bool) (D fx : ℚ) :
    ∀ (clock : List ℚ) (s : RunState),
      (run_trace has_update D fx s clock).all (fun dt => dt = fx) = true := by
  intro clock
  induction clock with
  | nil => intro s; rfl
  | cons t ts ih =>
    intro s
    rw [run_trace]
    split
    · exact ih _
    · rename_i s' dt heq
      have hdt := run_step_some has_update D fx s t dt (by rw [heq])
      simp only [List.all_cons, Bool.and_eq_true, decide_eq_true_eq]
      exact ⟨hdt.1, ih _⟩

/-- Claim C5: with `game_speed > 0`, every invocation of the logic-update
callback receives the constant fixed delta `1/game_speed` — never the
variable frame delta — and an invocation happens at a sampled time `t`
only when the elapsed time since the last logic update is at least
`1/game_speed`. -/
theorem C5_fixed_dt (g t0 : ℚ) (hg : 0 < g) (has_update : Bool) (clock : List ℚ) :
    (run_logic_trace has_update g t0 clock).all (fun dt => dt = 1 / g) = true ∧
    (∀ (s : RunState) (t dt : ℚ),
      (run_step has_update (1 / g) (1 / g) s t).2 = some dt →
      dt = 1 / g ∧ 1 / g ≤ t - s.last_update_time) := by
  constructor
  · rw [run_logic_trace, if_pos hg]
    exact run_trace_all_fixed has_update (1 / g) (1 / g) clock _
  · intro s t dt h
    have := run_step_some has_update (1 / g) (1 / g) s t dt h
    exact ⟨this.1, this.2.2.2⟩

/-- Witness for C5 at `game_speed = 10` with a two-sample clock. -/
theorem C5_fixed_dt_witness :
    (run_logic_trace true 10 0 [1 / 10, 1 / 5]).all (fun dt => dt = 1 / 10) = true ∧
    ((run_step true (1 / 10) (1 / 10)
        { last_time := 0, last_update_time := 0 } (1 / 10)).2 = some (1 / 10) →
      (1 / 10 : ℚ) = 1 / 10 ∧ (1 / 10 : ℚ)
        ≤ 1 / 10 - ({ last_time := 0, last_update_time := 0 } : RunState).last_update_time) :=
  ⟨(C5_fixed_dt 10 0 (by norm_num) true [1 / 10, 1 / 5]).1,
   fun h => (C5_fixed_dt 10 0 (by norm_num) true [1 / 10, 1 / 5]).2
     { last_time := 0, last_update_time := 0 } (1 / 10) (1 / 10) h⟩

/-- On an ideal clock ticking every `s` seconds, with a logic period of
exactly `m` ticks, the loop fires the logic update exactly every `m`-th
tick: over `n` ticks, starting `d` ticks after the last update, it
produces `(n + d) / m` updates, each with the fixed `dt`. -/
theorem run_trace_ticks (s : ℚ) (hs : 0 < s) (m : ℕ) (hm : 0 < m) (fx : ℚ) :
    ∀ (n a b d : ℕ) (lt : ℚ), a = b + d → d < m →
      run_trace true ((m : ℚ) * s) fx
        { last_time := lt, last_update_time := (b : ℚ) * s }
        ((List.range n).map (fun k => ((a + k + 1 : ℕ) : ℚ) * s))
      = List.replicate ((n + d) / m) fx := by
  intro n
  induction n with
  | zero =>
    intro a b d lt hab hdm
    simp [run_trace, Nat.div_eq_of_lt hdm]
  | succ n ih =>
    intro a b d lt hab hdm
    rw [List.range_succ_eq_map, List.map_cons, List.map_map]
    simp only [Nat.add_zero]
    have harg : ((fun k => ((a + k + 1 : ℕ) : ℚ) * s) ∘ Nat.succ)
        = fun k => (((a + 1) + k + 1 : ℕ) : ℚ) * s := by
      funext k
      simp only [Function.comp_apply]
      push_cast
      ring
    have ht : ((a + 1 : ℕ) : ℚ) * s - (b : ℚ) * s = ((d : ℚ) + 1) * s := by
      subst hab
      push_cast
      ring
    rw [run_trace, harg]
    by_cases hfire : m ≤ d + 1
    · have hcond : (m : ℚ) * s ≤ ((a + 1 : ℕ) : ℚ) * s - (b : ℚ) * s := by
        rw [ht]
        exact mul_le_mul_of_nonneg_right (by exact_mod_cast hfire) (le_of_lt hs)
      rw [run_step_fire _ _ _ _ (mul_pos (by exact_mod_cast hm) hs) hcond]
      show fx :: run_trace true ((m : ℚ) * s) fx
          { last_time := ((a + 1 : ℕ) : ℚ) * s,
            last_update_time := ((a + 1 : ℕ) : ℚ) * s }
          ((List.range n).map (fun k => (((a + 1) + k + 1 : ℕ) : ℚ) * s))
        = List.replicate ((n + 1 + d) / m) fx
      rw [ih (a + 1) (a + 1) 0 _ (by omega) hm,
        show n + 1 + d = n + m by omega, Nat.add_div_right n hm, Nat.add_zero]
      rfl
    · have hcond : ¬ ((m : ℚ) * s ≤ ((a + 1 : ℕ) : ℚ) * s - (b : ℚ) * s) := by
        rw [ht]
        intro hc
        have h1 : (m : ℚ) ≤ (d : ℚ) + 1 := le_of_mul_le_mul_right hc hs
        have h2 : m ≤ d + 1 := by exact_mod_cast h1
        omega
      rw [run_step_no_fire _ _ _ _ hcond]
      show run_trace true ((m : ℚ) * s) fx
          { last_time := ((a + 1 : ℕ) : ℚ) * s, last_update_time := (b : ℚ) * s }
          ((List.range n).map (fun k => (((a + 1) + k + 1 : ℕ) : ℚ) * s))
        = List.replicate ((n + 1 + d) / m) fx
      rw [ih (a + 1) b (d + 1) _ (by omega) (by omega),
        show n + (d + 1) = n + 1 + d by omega]

/-- Claim C6: with `logic_rate = 10`, two runs that differ only in render
rate (30 vs 60 frames per second, modelled by ideal injected clocks
sampling at the respective frame periods) over the identical wall-clock
duration `n/30 = 2n/60` invoke the logic-update callback the same number
of times with identical sequences of `dt` values, each equal to `1/10`. -/
theorem C6_fixed_step_determinism (n : ℕ) :
    run_logic_trace true 10 0 (frame_clock (1 / 30) n)
      = run_logic_trace true 10 0 (frame_clock (1 / 60) (2 * n)) ∧
    run_logic_trace true 10 0 (frame_clock (1 / 30) n)
      = List.replicate (n / 3) (1 / 10) ∧
    (n : ℚ) * (1 / 30) = ((2 * n : ℕ) : ℚ) * (1 / 60) := by
  have h30 := run_trace_ticks (1 / 30) (by norm_num) 3 (by norm_num) (1 / 10)
    n 0 0 0 0 rfl (by norm_num)
  have h60 := run_trace_ticks (1 / 60) (by norm_num) 6 (by norm_num) (1 / 10)
    (2 * n) 0 0 0 0 rfl (by norm_num)
  simp only [Nat.zero_add, Nat.cast_zero, zero_mul] at h30 h60
  rw [show ((3 : ℕ) : ℚ) * (1 / 30 : ℚ) = 1 / 10 by norm_num] at h30
  rw [show ((6 : ℕ) : ℚ) * (1 / 60 : ℚ) = 1 / 10 by norm_num] at h60
  have e30 : run_logic_trace true 10 0 (frame_clock (1 / 30) n)
      = List.replicate (n / 3) (1 / 10) := by
    rw [run_logic_trace, if_pos (by norm_num : (0 : ℚ) < 10), frame_clock]
    exact h30
  have e60 : run_logic_trace true 10 0 (frame_clock (1 / 60) (2 * n))
      = List.replicate ((2 * n) / 6) (1 / 10) := by
    rw [run_logic_trace, if_pos (by norm_num : (0 : ℚ) < 10), frame_clock]
    exact h60
  refine ⟨?_, e30, by push_cast; ring⟩
  rw [e30, e60, show (2 * n) / 6 = n / 3 by omega]

/-- Claim C9: on every exit path of `run` after the loop has been entered —
normal stop via `quit`, a keyboard interrupt, or a user-callback exception
(which the core does not catch: it propagates to the caller exactly when
the body errored) — the show-cursor escape `ESC[?25h` is emitted, after
all loop output and before `run` returns or the exception escapes. -/
theorem C9_cleanup_on_every_exit (script : List IterEvent) :
    "\x1b[?25h" ∈ (run true script).1 ∧
    ((run true script).2 = RunOutcome.propagated
      ↔ (loop_body true script).2 = LoopExit.errored) ∧
    (∃ mid : List String, (run true script).1
      = (loop_body true script).1 ++ mid ++ ["\x1b[?25h", "Exiting renderer loop.\n"]) := by
  rcases hlb : loop_body true script with ⟨out, ex⟩
  cases ex
  · refine ⟨?_, ?_, ⟨[], ?_⟩⟩
    · simp [run, hlb]
    · simp [run, hlb]
    · simp [run, hlb]
  · refine ⟨?_, ?_, ⟨["\nLoop terminated by user (KeyboardInterrupt).\n"], ?_⟩⟩
    · simp [run, hlb]
    · simp [run, hlb]
    · simp [run, hlb]
  · refine ⟨?_, ?_, ⟨[], ?_⟩⟩
    · simp [run, hlb]
    · simp [run, hlb]
    · simp [run, hlb]
